/-
Verification of the automation workflow core (platform/automation):
the execution/validation state machine of `Workflow._execute_agent_flow`,
the topological scheduler `Workflow._topologically_sort`, the bug/feedback
stage pipelines, and the `CodexRunner` session-id extraction.

The Python sources are shallowly embedded: dict-based records become
structures, the external Codex gateway becomes an oracle (`Env`), loops
become structurally recursive functions with the same guards, and Python
truthiness of strings/lists is modelled explicitly (`pyOrStr`, `pyOrOpt`,
`pyOrList`).
-/
import Mathlib

set_option maxRecDepth 8000

namespace Automation

/-! ## Python string primitives

`str.lower()`, `str.strip()`, `str.startswith()` and string comparison are
modelled over the character data of Lean strings (ASCII-faithful: the
workflow only compares ASCII keywords and marker lines). -/

/-- Model of Python character lowercasing for the ASCII range. -/
def pyLowerChar (c : Char) : Char :=
  if 65 ≤ c.toNat ∧ c.toNat ≤ 90 then Char.ofNat (c.toNat + 32) else c

/-- Model of `str.lower()`. -/
def pyLower (s : String) : String :=
  ⟨s.data.map pyLowerChar⟩

/-- ASCII whitespace recognised by `str.strip()`. -/
def isSpaceChar (c : Char) : Bool :=
  c.toNat == 32 || c.toNat == 9 || c.toNat == 10 || c.toNat == 13

/-- Model of `str.strip()`. -/
def pyStrip (s : String) : String :=
  ⟨((s.data.dropWhile isSpaceChar).reverse.dropWhile isSpaceChar).reverse⟩

/-- Model of `str.startswith(pat)`. -/
def pyStartsWith (s pat : String) : Bool :=
  pat.data.isPrefixOf s.data

/-- Boolean lexicographic `≤` on character lists by code point. -/
def charListLe : List Char → List Char → Bool
  | [], _ => true
  | _ :: _, [] => false
  | a :: as, b :: bs =>
    if a.toNat < b.toNat then true
    else if b.toNat < a.toNat then false
    else charListLe as bs

/-- Model of Python string comparison (`<=` by code points), the order
`heapq` uses on task-id strings. -/
def strLe (s t : String) : Bool :=
  charListLe s.data t.data

/-! ## Python truthiness helpers

Python `a or b` treats `None`, `""` and `[]` as falsy; these helpers
mirror that for the specific types used by workflow.py. -/

/-- Model of Python `a or b` for optional strings: `None` and `""` are falsy. -/
def pyOrOpt (a : Option String) (b : Option String) : Option String :=
  match a with
  | none => b
  | some s => if s = "" then b else some s

/-- Model of Python `a or b` where the fallback is a plain string. -/
def pyOrStr (a : Option String) (b : String) : String :=
  match a with
  | none => b
  | some s => if s = "" then b else s

/-- Model of Python `a or b` for lists (`[]` is falsy). -/
def pyOrList (a : List String) (b : List String) : List String :=
  if a = [] then b else a

/-! ## runner.py: `CodexRunner._extract_session_id`

`raw_output.splitlines()` is modelled as the list of lines. -/

/-- Characters after the first colon; model of Python
`line.split(":", 1)[1]` (the call sites guarantee a colon exists). -/
def afterColon : List Char → List Char
  | [] => []
  | x :: rest => if x = ':' then rest else afterColon rest

/-- Model of Python `line.split(":", 1)[1]` on a string. -/
def afterFirstColon (s : String) : String :=
  ⟨afterColon s.data⟩

/-- Embedding of `CodexRunner._extract_session_id` (runner.py lines 195-203),
operating on the `splitlines()` decomposition of the raw gateway output. -/
def extract_session_id : List String → Option String
  | [] => none
  | line :: rest =>
    let t := pyStrip line
    if pyStartsWith (pyLower t) "session id:" then some (pyStrip (afterFirstColon t))
    else if pyStartsWith (pyLower t) "thread id:" then some (pyStrip (afterFirstColon t))
    else extract_session_id rest

/-- Embedding of runner.py line 121:
`session_id = self._extract_session_id(raw_output) or resume_session`. -/
def runSessionId (rawLines : List String) (resumeSession : Option String) : Option String :=
  pyOrOpt (extract_session_id rawLines) resumeSession

/-! ## parsing.py / verdict model

`read_agent_output` either yields a JSON dict or raises
`InvalidAgentResponseError`.  Only the fields the workflow inspects are
modelled: `status`, `issues` (absent is already collapsed to `[]` by the
`or []` at the use sites), `next_actor`. -/

/-- Parsed reviewer output (the dict returned by `read_agent_output`). -/
structure Verdict where
  status : Option String
  issues : List String
  next_actor : Option String
  deriving Repr, DecidableEq

/-- Model of `(review.get("status") or "").lower()`. -/
def statusNorm (v : Verdict) : String :=
  pyLower (pyOrStr v.status "")

/-- Model of `(review.get("next_actor") or "agent").lower()`. -/
def nextActorNorm (v : Verdict) : String :=
  pyLower (pyOrStr v.next_actor "agent")

/-! ## workflow.py: prompt builders -/

/-- Embedding of `Workflow._build_retry_prompt` (workflow.py lines 703-717). -/
def buildRetryPrompt (originalPrompt : String) (issues : List String) : String :=
  let joined := String.intercalate "\n" (issues.map (fun issue => "- " ++ issue))
  let issueLines := if joined = "" then "- No details provided." else joined
  "The quality assurance manager reported the following issues:\n" ++ issueLines ++
    "\n\nPlease correct the deliverables so they fully satisfy the original instructions below. " ++
    "Regenerate the complete content rather than incremental edits.\n\n" ++
    "Original instructions:\n" ++ originalPrompt

/-- Embedding of `Workflow._build_missing_deliverables_prompt`
(workflow.py lines 1191-1205); `missing` is the list of path strings. -/
def buildMissingDeliverablesPrompt (originalPrompt : String) (missing : List String) : String :=
  let lines := String.intercalate "\n" (missing.map (fun path => "- " ++ path))
  "You did not write the required deliverables to the repository.\n" ++
    "The following files are missing or empty:\n" ++ lines ++
    "\n\nResume the work and update each file directly in the repo so it matches the original instructions.\n" ++
    "Do not return the content inline; write the files exactly as required and confirm completion.\n\n" ++
    "Original instructions:\n" ++ originalPrompt

/-- Embedding of `Workflow._validate_backlog_resource_constraints`
(workflow.py lines 902-909): the hook always returns an empty list. -/
def validateBacklogResourceConstraints : List String := []

/-! ## The execution/validation state machine (`Workflow._execute_agent_flow`)

The Codex gateway is an oracle: the `n`-th `CodexRunner.run` call gets the
`n`-th `GatewayResponse`.  `marker` stands for `_extract_session_id(raw_output)`
and `verdict` for the outcome of `read_agent_output` on the last message
(`none` = `InvalidAgentResponseError`); the `k`-th acceptance check
(`_missing_deliverables`) observes `missing k`.  Every gateway invocation and
every acceptance check is recorded as an `Event`, the audit trail the
theorems inspect. -/

/-- The three roles that invoke the gateway inside one agent flow. -/
inductive Role where
  | agent
  | manager
  | qa
  deriving Repr, DecidableEq

/-- One recorded gateway invocation: role, `resume_session` argument, the
attempt number used for the label, whether the gateway exited 0, the
`CodexRunResult.session_id` produced (for successful calls), and the prompt
text (recorded for agent invocations; reviewer prompts are built by the
external `manager`/`qa` agent modules and are not modelled). -/
structure Invocation where
  role : Role
  resume : Option String
  attempt : Nat
  ok : Bool
  returned : Option String
  prompt : Option String
  deriving Repr, DecidableEq

/-- Observable events of one `_execute_agent_flow` run. -/
inductive Event where
  | call (inv : Invocation)
  | check (missing : List String)
  deriving Repr, DecidableEq

/-- Oracle response of one gateway invocation. -/
structure GatewayResponse where
  exitOk : Bool
  marker : Option String
  verdict : Option Verdict
  deriving Repr

/-- The environment: gateway responses by invocation index and
missing-deliverable lists by acceptance-check index. -/
structure Env where
  gateway : Nat → GatewayResponse
  missing : Nat → List String

/-- Static configuration of one `_execute_agent_flow` run.  `enableQa`
stands for the conjunction `enable_qa and task_id and task_source and
qa_label and task_dir` guarding both QA call sites; `isPlanner` for
`spec.name == "Planner"`. -/
structure Config where
  agentRetryLimit : Nat
  managerRetryLimit : Nat
  qaRetryLimit : Nat
  enableQa : Bool
  isPlanner : Bool
  deriving Repr

/-- Dynamic bookkeeping threaded through the flow: gateway-call and
acceptance-check counters plus the event trail. -/
structure FlowState where
  calls : Nat
  checks : Nat
  events : List Event
  deriving Repr

/-- Append one invocation to the trail and advance the call counter. -/
def FlowState.recordCall (st : FlowState) (inv : Invocation) : FlowState :=
  { st with calls := st.calls + 1, events := st.events ++ [Event.call inv] }

/-- Append one acceptance check to the trail and advance the check counter. -/
def FlowState.recordCheck (st : FlowState) (missing : List String) : FlowState :=
  { st with checks := st.checks + 1, events := st.events ++ [Event.check missing] }

/-- The fields of `CodexRunResult` the flow consumes. -/
structure RunResult where
  sessionId : Option String
  verdict : Option Verdict
  deriving Repr, DecidableEq

/-- Embedding of one `CodexRunner.run` call: non-zero exit raises
(`none`); a successful call returns `session_id = marker or resume`
(runner.py line 121) and the parsed verdict. -/
def doRun (env : Env) (st : FlowState) (role : Role) (attempt : Nat)
    (prompt : Option String) (resume : Option String) :
    Option RunResult × FlowState :=
  let resp := env.gateway st.calls
  if resp.exitOk then
    let sid := pyOrOpt resp.marker resume
    (some { sessionId := sid, verdict := resp.verdict },
      st.recordCall { role := role, resume := resume, attempt := attempt,
                      ok := true, returned := sid, prompt := prompt })
  else
    (none,
      st.recordCall { role := role, resume := resume, attempt := attempt,
                      ok := false, returned := none, prompt := prompt })

/-- Terminal outcomes of the embedded flow.  `fellThrough` is the implicit
`return None` reached when the agent `for` loop finishes its last iteration
via `continue`/`break` without returning or raising. -/
inductive Outcome where
  | accepted
  | agentExhausted
  | managerUnresolvedExec
  | managerUnresolvedParse
  | managerExhausted
  | qaUnresolvedExec
  | qaUnresolvedParse
  | fellThrough
  deriving Repr, DecidableEq

/-- Result of `_perform_manager_validation_with_retries`. -/
inductive MgrResult where
  | ok (review : Verdict) (res : RunResult) (st : FlowState)
  | err (o : Outcome) (st : FlowState)

/-- Embedding of `Workflow._perform_manager_validation_with_retries`
(workflow.py lines 357-411).  `remaining` counts the loop indices still
available including the current one (initially `manager_retry_limit + 1`);
`remaining = 0` is the unreachable fall-through raise after the loop. -/
def managerRetriesLoop (env : Env) (mgrAttempt : Nat) :
    Nat → FlowState → Option String → MgrResult
  | 0, st, _ => .err .managerUnresolvedExec st
  | remaining + 1, st, session =>
    match doRun env st .manager mgrAttempt none session with
    | (none, st') =>
      if remaining = 0 then .err .managerUnresolvedExec st'
      else managerRetriesLoop env mgrAttempt remaining st' none
    | (some res, st') =>
      match res.verdict with
      | none =>
        if remaining = 0 then .err .managerUnresolvedParse st'
        else managerRetriesLoop env mgrAttempt remaining st' res.sessionId
      | some review => .ok review res st'

/-- Result of `_perform_qa_review_with_retries` (also reports the attempt
index actually used, the third component of the Python tuple). -/
inductive QaResult where
  | ok (review : Verdict) (res : RunResult) (attemptUsed : Nat) (st : FlowState)
  | err (o : Outcome) (st : FlowState)

/-- Embedding of `Workflow._perform_qa_review_with_retries` (workflow.py
lines 413-467).  `currentAttempt` follows `attempt + retry_index`. -/
def qaRetriesLoop (env : Env) :
    Nat → Nat → FlowState → Option String → QaResult
  | 0, _, st, _ => .err .qaUnresolvedExec st
  | remaining + 1, currentAttempt, st, session =>
    match doRun env st .qa currentAttempt none session with
    | (none, st') =>
      if remaining = 0 then .err .qaUnresolvedExec st'
      else qaRetriesLoop env remaining (currentAttempt + 1) st' none
    | (some res, st') =>
      match res.verdict with
      | none =>
        if remaining = 0 then .err .qaUnresolvedParse st'
        else qaRetriesLoop env remaining (currentAttempt + 1) st' res.sessionId
      | some review => .ok review res currentAttempt st'

/-- Result of the manager `while True` cycle: terminal success, a fatal
outcome, or `break` back to the agent loop with a fresh corrective prompt. -/
inductive CycleResult where
  | done (st : FlowState)
  | toAgent (prompt : String) (st : FlowState)
  | err (o : Outcome) (st : FlowState)

/-- Embedding of the `while True` manager-validation cycle of
`_execute_agent_flow` (workflow.py lines 606-701).  `agentSess` is
`agent_result.session_id` of the current agent attempt.  The cycle
iterates only while `manager_attempt ≤ manager_retry_limit`; `budget`
is the structural image `manager_retry_limit + 1 - manager_attempt` of
that guard (entered with `managerAttempt = 1`, `budget =
manager_retry_limit`), so `budget = 0` is exactly the Python condition
`manager_attempt > self.manager_retry_limit`. -/
def managerCycle (env : Env) (cfg : Config) (initialPrompt : String)
    (agentSess : Option String) :
    (budget : Nat) → (managerAttempt : Nat) → FlowState →
    (managerSession : Option String) → (currentQaReview : Option Verdict) →
    (qaFollowCounter : Nat) → (qaSession : Option String) → CycleResult
  | budget, managerAttempt, st, managerSession, currentQaReview, qaFollowCounter, qaSession =>
    match managerRetriesLoop env managerAttempt (cfg.managerRetryLimit + 1) st managerSession with
    | .err o st' => .err o st'
    | .ok review res st' =>
      let managerSession' := res.sessionId
      if statusNorm review = "pass" then
        if cfg.isPlanner ∧ validateBacklogResourceConstraints ≠ [] then
          .toAgent (buildRetryPrompt initialPrompt validateBacklogResourceConstraints) st'
        else
          .done st'
      else
        let issues := review.issues
        let nextActor := nextActorNorm review
        match budget with
        | 0 => .err .managerExhausted st'
        | budget' + 1 =>
          if nextActor = "qa" ∧ cfg.enableQa then
            match qaRetriesLoop env (cfg.qaRetryLimit + 1) (qaFollowCounter + 1) st' qaSession with
            | .err o st'' => .err o st''
            | .ok qaReview qaRes attemptUsed st'' =>
              let qaSession' := qaRes.sessionId
              if statusNorm qaReview ≠ "pass" then
                .toAgent (buildRetryPrompt initialPrompt (pyOrList qaReview.issues issues)) st''
              else
                managerCycle env cfg initialPrompt agentSess budget' (managerAttempt + 1) st''
                  managerSession' (some qaReview) attemptUsed qaSession'
          else
            .toAgent (buildRetryPrompt initialPrompt issues) st'

/-- Intermediate result of the optional QA pre-review block
(workflow.py lines 568-599). -/
inductive QaPhase where
  | fatal (o : Outcome) (st : FlowState)
  | redo (prompt : String) (st : FlowState)
  | proceed (qaReview : Option Verdict) (qaSession : Option String)
      (qaAttemptIndex : Nat) (st : FlowState)

/-- Embedding of the agent `for` loop of `_execute_agent_flow`
(workflow.py lines 505-701).  `remaining` counts iterations still
available including the current one (initially `agent_retry_limit + 1`);
exhausting it without `return`/`raise` is the implicit `fellThrough`. -/
def agentLoop (env : Env) (cfg : Config) (initialPrompt : String) :
    Nat → (attempt : Nat) → (prompt : String) → (agentSession : Option String) →
    FlowState → Outcome × FlowState
  | 0, _, _, _, st => (.fellThrough, st)
  | remaining + 1, attempt, prompt, agentSession, st =>
    match doRun env st .agent attempt (some prompt) agentSession with
    | (none, st') =>
      if remaining = 0 then (.agentExhausted, st')
      else agentLoop env cfg initialPrompt remaining (attempt + 1) prompt none st'
    | (some agentRes, st') =>
      let agentSession' := agentRes.sessionId
      let missing := env.missing st'.checks
      let st2 := st'.recordCheck missing
      if missing ≠ [] then
        agentLoop env cfg initialPrompt remaining (attempt + 1)
          (buildMissingDeliverablesPrompt initialPrompt missing) agentSession' st2
      else
        let qaStep : QaPhase :=
          if cfg.enableQa then
            match qaRetriesLoop env (cfg.qaRetryLimit + 1) 1 st2 none with
            | .err o st3 => .fatal o st3
            | .ok qaReview qaRes attemptUsed st3 =>
              if statusNorm qaReview ≠ "pass" then
                .redo (buildRetryPrompt initialPrompt qaReview.issues) st3
              else
                .proceed (some qaReview) qaRes.sessionId attemptUsed st3
          else .proceed none none 0 st2
        match qaStep with
        | .fatal o st3 => (o, st3)
        | .redo newPrompt st3 =>
          agentLoop env cfg initialPrompt remaining (attempt + 1) newPrompt agentSession' st3
        | .proceed qaReview qaSession qaAttemptIndex st3 =>
          let qaFollowCounter := if cfg.enableQa then max qaAttemptIndex 1 else 0
          match managerCycle env cfg initialPrompt agentSession' cfg.managerRetryLimit 1 st3 none
              qaReview qaFollowCounter qaSession with
          | .done st4 => (.accepted, st4)
          | .err o st4 => (o, st4)
          | .toAgent newPrompt st4 =>
            agentLoop env cfg initialPrompt remaining (attempt + 1) newPrompt agentSession' st4

/-- Embedding of `Workflow._execute_agent_flow` as a whole: starts at
attempt 1 with the initial prompt, no session, and an empty trail. -/
def executeAgentFlow (env : Env) (cfg : Config) (initialPrompt : String) :
    Outcome × FlowState :=
  agentLoop env cfg initialPrompt (cfg.agentRetryLimit + 1) 1 initialPrompt none
    { calls := 0, checks := 0, events := [] }

/-! ## Event-trail observations -/

/-- The flow state carried by a manager-retries result. -/
def MgrResult.state : MgrResult → FlowState
  | .ok _ _ st => st
  | .err _ st => st

/-- The flow state carried by a QA-retries result. -/
def QaResult.state : QaResult → FlowState
  | .ok _ _ _ st => st
  | .err _ st => st

/-- The flow state carried by a manager-cycle result. -/
def CycleResult.state : CycleResult → FlowState
  | .done st => st
  | .toAgent _ st => st
  | .err _ st => st

/-- The invocations of an event trail, in order. -/
def invocationsOf (es : List Event) : List Invocation :=
  es.filterMap (fun e => match e with | .call inv => some inv | .check _ => none)

/-- Number of invocations of a given role in a trail. -/
def roleCallCount (r : Role) (es : List Event) : Nat :=
  ((invocationsOf es).filter (fun inv => inv.role == r)).length

/-! ## Session-continuity predicates over invocation trails -/

/-- One pair of consecutive same-role invocations satisfies the round-trip
rule: the later call resumes the earlier call's returned session id when the
earlier call succeeded at the gateway, and starts tokenless otherwise. -/
def pairOk (earlier later : Invocation) : Bool :=
  if earlier.ok then later.resume == earlier.returned else later.resume == none

/-- The consecutive pairs of invocations of one role in a trail. -/
def rolePairs (r : Role) (invs : List Invocation) : List (Invocation × Invocation) :=
  let filtered := invs.filter (fun inv => inv.role == r)
  filtered.zip filtered.tail

/-- The session round-trip property exactly as the claim states it: for
every role and every pair of consecutive invocations of that role, `pairOk`. -/
def sessionRoundTripOk (invs : List Invocation) : Bool :=
  (rolePairs .agent invs).all (fun p => pairOk p.1 p.2) &&
  (rolePairs .manager invs).all (fun p => pairOk p.1 p.2) &&
  (rolePairs .qa invs).all (fun p => pairOk p.1 p.2)

/-- Expected-resume tracking state: for each role, the token the next
invocation of that role must resume with (`none` = fresh conversation). -/
structure ContState where
  agentExp : Option String
  managerExp : Option String
  qaExp : Option String
  deriving Repr, DecidableEq

/-- The expected-resume state at the start of a flow: everything fresh. -/
def contInit : ContState := { agentExp := none, managerExp := none, qaExp := none }

/-- The token the next invocation of role `r` must resume with. -/
def ContState.expFor (cs : ContState) : Role → Option String
  | .agent => cs.agentExp
  | .manager => cs.managerExp
  | .qa => cs.qaExp

/-- Expected-resume update after one invocation: a role's expectation becomes
the returned session id on gateway success and `none` on failure; an agent
invocation additionally resets the manager and QA expectations (the flow's
return to the Executing state discards both reviewer sessions). -/
def contUpdate (cs : ContState) (inv : Invocation) : ContState :=
  let upd := if inv.ok then inv.returned else none
  match inv.role with
  | .agent => { agentExp := upd, managerExp := none, qaExp := none }
  | .manager => { cs with managerExp := upd }
  | .qa => { cs with qaExp := upd }

/-- Checks a trail against the expected-resume discipline. -/
def contCheck : ContState → List Invocation → Bool
  | _, [] => true
  | cs, inv :: rest =>
    (inv.resume == cs.expFor inv.role) && contCheck (contUpdate cs inv) rest

/-- Folds the expected-resume state over a trail. -/
def contFold (cs : ContState) (invs : List Invocation) : ContState :=
  invs.foldl contUpdate cs

/-- The trail of a flow state obeys the expected-resume discipline and its
folded expectation state is `cs`. -/
def trailOK (st : FlowState) (cs : ContState) : Prop :=
  contCheck contInit (invocationsOf st.events) = true ∧
  contFold contInit (invocationsOf st.events) = cs

/-! ## Concrete scenario environments -/

/-- A failing gateway invocation (non-zero exit). -/
def gwFail : GatewayResponse :=
  { exitOk := false, marker := none, verdict := none }

/-- A successful gateway invocation with a session marker and a parse
result. -/
def gwOk (m : String) (v : Option Verdict) : GatewayResponse :=
  { exitOk := true, marker := some m, verdict := v }

/-- Environment built from finite scripts: the `n`-th gateway call gets
the `n`-th response (failing past the end), the `k`-th acceptance check
the `k`-th missing list (empty past the end). -/
def envOfList (l : List GatewayResponse) (miss : List (List String)) : Env :=
  { gateway := fun n => l.getD n gwFail, missing := fun k => miss.getD k [] }

/-- A passing review verdict. -/
def passVerdict : Verdict := { status := some "pass", issues := [], next_actor := none }

/-! ## tasks.py / workflow.py: the task graph scheduler

`TaskEntry` is the dataclass of tasks.py (the opaque `raw` dict payload is
not modelled; the scheduler never reads it).  Python dicts keyed by task id
are embedded as insertion-ordered association lists; `heapq` is embedded by
its observable behaviour, popping the minimum string. -/

/-- The backlog task record (tasks.py). -/
structure TaskEntry where
  task_id : String
  title : String := ""
  owner : String := ""
  area : String := ""
  deps : List String := []
  dod : List String := []
  tests : List String := []
  artifacts : List String := []
  estimate_points : Int := 1
  tags : List String := []
  notes : String := ""
  deriving Repr, DecidableEq, Inhabited

/-- Dict lookup on an insertion-ordered association list. -/
def alookup {α : Type} (key : String) : List (String × α) → Option α
  | [] => none
  | (k, v) :: rest => if k = key then some v else alookup key rest

/-- Dict update-in-place of an existing key (`d[k] = f(d[k])`); a missing
key is left untouched (the workflow only updates initialised keys). -/
def aset {α : Type} (key : String) (f : α → α) : List (String × α) → List (String × α)
  | [] => []
  | (k, v) :: rest => if k = key then (k, f v) :: rest else (k, v) :: aset key f rest

/-- Dict insertion: overwrite an existing key in place, else append. -/
def dinsert {α : Type} (key : String) (v : α) : List (String × α) → List (String × α)
  | [] => [(key, v)]
  | (k, v0) :: rest => if k = key then (k, v) :: rest else (k, v0) :: dinsert key v rest

/-- Model of `heapq.heappop`: the smallest string in the heap. -/
def listMin : List String → Option String
  | [] => none
  | x :: rest =>
    match listMin rest with
    | none => some x
    | some m => if strLe x m then some x else some m

/-- Removes the popped element (one occurrence) from the heap model. -/
def removeFirst (x : String) : List String → List String
  | [] => []
  | y :: rest => if y = x then rest else y :: removeFirst x rest

/-- Sum of the nonnegative parts of the in-degree values; together with the
ready-list length this is the loop variant of Kahn's algorithm. -/
def sumToNat (l : List (String × Int)) : Nat :=
  (l.map (fun p => p.2.toNat)).sum





/-- Embedding of the neighbour-relaxation inner loop of
`_topologically_sort` (workflow.py lines 864-867): decrement each
neighbour's in-degree, pushing those that reach zero. -/
def relaxNeighbors : List String → List (String × Int) → List String →
    List (String × Int) × List String
  | [], indeg, ready => (indeg, ready)
  | n :: rest, indeg, ready =>
    let indeg' := aset n (fun v => v - 1) indeg
    if alookup n indeg' = some 0 then relaxNeighbors rest indeg' (ready ++ [n])
    else relaxNeighbors rest indeg' ready


/-- Embedding of the `while ready:` loop of `_topologically_sort`
(workflow.py lines 861-867); returns the ordered ids and the final
in-degree dict (consulted afterwards for the cycle report).  `fuel`
bounds the iterations structurally; `ready.length + sumToNat indeg`
strictly decreases per iteration (`relaxNeighbors_measure`), and at
`fuel = 0` under adequate fuel the ready heap is already empty, making
the `fuel = 0` value coincide with the loop-guard exit. -/
def kahnLoopF (adj : List (String × List String)) :
    Nat → List (String × Int) → List String → List String →
    List String × List (String × Int)
  | 0, indeg, _, ordered => (ordered, indeg)
  | fuel + 1, indeg, ready, ordered =>
    match listMin ready with
    | none => (ordered, indeg)
    | some current =>
      let pr := relaxNeighbors ((alookup current adj).getD []) indeg (removeFirst current ready)
      kahnLoopF adj fuel pr.1 pr.2 (ordered ++ [current])

/-- The `while ready:` loop, with exactly adequate fuel. -/
def kahnLoop (adj : List (String × List String)) (indeg : List (String × Int))
    (ready : List String) (ordered : List String) :
    List String × List (String × Int) :=
  kahnLoopF adj (ready.length + sumToNat indeg) indeg ready ordered

/-- Structured form of the two `WorkflowError`s `_topologically_sort` can
raise: an unknown dependency, or the cycle report listing the ids left
with positive in-degree. -/
inductive GraphErr where
  | unknownDep (taskId dep : String)
  | cycleDetected (unresolved : List String)
  deriving Repr, DecidableEq

/-- Embedding of the dependency-edge loop body (workflow.py lines 849-856)
for one task: raise on an unknown dep, else bump the task's in-degree and
append it to the dep's adjacency list. -/
def addDeps (taskId : String) (index : List (String × TaskEntry)) :
    List String → List (String × Int) × List (String × List String) →
    Except GraphErr (List (String × Int) × List (String × List String))
  | [], acc => .ok acc
  | dep :: rest, (indeg, adj) =>
    if (alookup dep index).isSome then
      addDeps taskId index rest
        (aset taskId (fun v => v + 1) indeg, aset dep (fun l => l ++ [taskId]) adj)
    else .error (.unknownDep taskId dep)

/-- The outer dependency-edge loop over all tasks. -/
def addAllDeps (index : List (String × TaskEntry)) :
    List TaskEntry → List (String × Int) × List (String × List String) →
    Except GraphErr (List (String × Int) × List (String × List String))
  | [], acc => .ok acc
  | t :: rest, acc =>
    match addDeps t.task_id index t.deps acc with
    | .error e => .error e
    | .ok acc' => addAllDeps index rest acc'

/-- Embedding of `Workflow._topologically_sort` (workflow.py lines 844-875). -/
def topologicallySort (tasks : List TaskEntry) : Except GraphErr (List TaskEntry) :=
  let index := tasks.foldl (fun acc t => dinsert t.task_id t acc) []
  let indeg0 := tasks.foldl (fun acc t => dinsert t.task_id (0 : Int) acc) []
  let adj0 := tasks.foldl (fun acc t => dinsert t.task_id ([] : List String) acc) []
  match addAllDeps index tasks (indeg0, adj0) with
  | .error e => .error e
  | .ok (indeg, adj) =>
    let ready := indeg.filterMap (fun p => if p.2 = 0 then some p.1 else none)
    let res := kahnLoop adj indeg ready []
    if res.1.length ≠ tasks.length then
      .error (.cycleDetected (res.2.filterMap (fun p => if p.2 > 0 then some p.1 else none)))
    else
      .ok (res.1.map (fun i => (alookup i index).getD default))

/-! ## Specification-side graph vocabulary -/

/-- The task identifiers, in backlog order. -/
def taskIds (tasks : List TaskEntry) : List String :=
  tasks.map (fun t => t.task_id)

/-- The declared dependencies of the task with a given id (empty for an
unknown id; ids are unique in every claim hypothesis). -/
def depsOf (tasks : List TaskEntry) (y : String) : List String :=
  match tasks.find? (fun t => t.task_id == y) with
  | some t => t.deps
  | none => []

/-- The dependents of `x`: one entry `t.task_id` per occurrence of `x` in
`t.deps`, in backlog order — the specification of the built adjacency list. -/
def succListD (tasks : List TaskEntry) (x : String) : List String :=
  tasks.flatMap (fun t => (t.deps.filter (fun d => d == x)).map (fun _ => t.task_id))

/-- `respectsFrom tasks seen order`: walking `order`, every task's
dependencies lie among `seen` or earlier elements of `order`.
`respectsFrom tasks [] order` says each task appears after all of its
dependencies. -/
def respectsFrom (tasks : List TaskEntry) : List String → List String → Prop
  | _, [] => True
  | seen, y :: rest =>
    (∀ d ∈ depsOf tasks y, d ∈ seen) ∧ respectsFrom tasks (y :: seen) rest

/-- A dependency chain: from `x`, each listed element is a dependency of
the previous one. -/
def depChain (tasks : List TaskEntry) : String → List String → Prop
  | _, [] => True
  | x, y :: rest => y ∈ depsOf tasks x ∧ depChain tasks y rest

/-- A dependency cycle: a nonempty list that chains back to its head. -/
def IsDepCycle (tasks : List TaskEntry) (c : List String) : Prop :=
  match c with
  | [] => False
  | y :: rest => depChain tasks y (rest ++ [y])

/-- Total number of dependency-edge increments the edge loop applies to
key `y`: each task whose id is `y` contributes one per declared dep. -/
def edgeCount (ts : List TaskEntry) (y : String) : Nat :=
  (ts.map (fun t => if t.task_id = y then t.deps.length else 0)).sum

/-- Loop invariant of Kahn's algorithm as implemented by
`_topologically_sort`: the in-degree dict is keyed by the task ids and
holds, for every id, the number of its dependencies not yet ordered; the
ready heap contains exactly the unordered ids whose dependencies are all
ordered; the ordered prefix is duplicate-free, made of task ids, and lists
every id after all of its dependencies. -/
structure KahnInv (tasks : List TaskEntry) (indeg : List (String × Int))
    (ready ordered : List String) : Prop where
  indegKeys : indeg.map Prod.fst = taskIds tasks
  indegVal : ∀ y ∈ taskIds tasks, alookup y indeg =
    some (((depsOf tasks y).countP (fun d => !(ordered.contains d)) : Nat) : Int)
  readyNodup : ready.Nodup
  readyChar : ∀ y, y ∈ ready ↔
    (y ∈ taskIds tasks ∧ y ∉ ordered ∧
      (depsOf tasks y).all (fun d => ordered.contains d) = true)
  orderedNodup : ordered.Nodup
  orderedSub : ∀ y ∈ ordered, y ∈ taskIds tasks
  orderedResp : respectsFrom tasks [] ordered

/-! ## The bug/feedback stage pipelines

The per-item `state.json` dict is embedded as `PipeState`; the
stage-result file read is an oracle value `FileRead`; one scheduling pass
over a single item is `bugPass`/`feedbackPass`, recording which stage (if
any) was invoked. -/

/-- One entry appended to the state `history` list. -/
structure HistoryEntry where
  stage : String
  status : String
  timestamp : String
  deriving Repr, DecidableEq

/-- The persisted per-item state dict.  A missing `awaiting_human` key is
falsy in Python, so it is modelled as `false`. -/
structure PipeState where
  pending_stage : Option String
  awaiting_human : Bool
  awaiting_reason : Option String
  history : List HistoryEntry
  deriving Repr, DecidableEq

/-- Model of `state.get("pending_stage") or "intake"`. -/
def pendingStageOf (s : PipeState) : String :=
  pyOrStr s.pending_stage "intake"

/-- What reading a stage-result JSON file can observe. -/
inductive FileRead where
  | missing
  | badJson
  | content (status : Option String)
  deriving Repr, DecidableEq

/-- The two `WorkflowError`s a state update can raise. -/
inductive PipeErr where
  | missingResult
  | invalidResult
  deriving Repr, DecidableEq

/-- Embedding of `Workflow._update_bug_state_after_stage` (workflow.py
lines 1321-1384).  `file` is the read of the stage's result file; the
`status` field goes through `(result_data.get("status") or "").lower()`. -/
def updateBugStateAfterStage (stage : String) (file : FileRead)
    (timestamp : String) (state : PipeState) : Except PipeErr PipeState :=
  if ¬(stage = "intake" ∨ stage = "triage" ∨ stage = "repro") then .error .missingResult
  else
    match file with
    | .missing => .error .missingResult
    | .badJson => .error .invalidResult
    | .content rawStatus =>
      let status := pyLower (pyOrStr rawStatus "")
      let st1 : PipeState :=
        { state with
          history := state.history ++ [⟨stage, status, timestamp⟩],
          awaiting_reason := none,
          awaiting_human := false }
      .ok (
        if stage = "intake" then
          if status = "needs_info" then
            { st1 with pending_stage := some "intake", awaiting_human := true,
                       awaiting_reason := some "needs_info" }
          else { st1 with pending_stage := some "triage" }
        else if stage = "triage" then
          if status = "needs_info" then
            { st1 with pending_stage := some "triage", awaiting_human := true,
                       awaiting_reason := some "needs_info" }
          else if status = "duplicate" ∨ status = "rejected" then
            { st1 with pending_stage := some "done" }
          else if status = "triaged" then { st1 with pending_stage := some "repro" }
          else { st1 with pending_stage := some "repro" }
        else
          if status = "blocked" then
            { st1 with pending_stage := some "repro", awaiting_human := true,
                       awaiting_reason := some "blocked" }
          else { st1 with pending_stage := some "done" })

/-- Embedding of `Workflow._update_feedback_state_after_stage`
(workflow.py lines 1386-1449). -/
def updateFeedbackStateAfterStage (stage : String) (file : FileRead)
    (timestamp : String) (state : PipeState) : Except PipeErr PipeState :=
  if ¬(stage = "intake" ∨ stage = "review" ∨ stage = "plan") then .error .missingResult
  else
    match file with
    | .missing => .error .missingResult
    | .badJson => .error .invalidResult
    | .content rawStatus =>
      let status := pyLower (pyOrStr rawStatus "")
      let st1 : PipeState :=
        { state with
          history := state.history ++ [⟨stage, status, timestamp⟩],
          awaiting_reason := none,
          awaiting_human := false }
      .ok (
        if stage = "intake" then
          if status = "needs_info" then
            { st1 with pending_stage := some "intake", awaiting_human := true,
                       awaiting_reason := some "needs_info" }
          else { st1 with pending_stage := some "review" }
        else if stage = "review" then
          if status = "needs_info" then
            { st1 with pending_stage := some "review", awaiting_human := true,
                       awaiting_reason := some "needs_info" }
          else if status = "rejected" ∨ status = "duplicate" then
            { st1 with pending_stage := some "done" }
          else if status = "reviewed" then { st1 with pending_stage := some "plan" }
          else { st1 with pending_stage := some "plan" }
        else
          if status = "blocked" then
            { st1 with pending_stage := some "plan", awaiting_human := true,
                       awaiting_reason := some "blocked" }
          else { st1 with pending_stage := some "done" })

/-- Environment of one scheduling pass over one item: whether the stage
prompt is registered, whether the stage context could be built, whether
the execution flow completed without `WorkflowError`, and the stage-result
file observed afterwards. -/
structure StageRunEnv where
  promptRegistered : Bool
  contextAvailable : Bool
  flowOk : Bool
  file : FileRead
  deriving Repr

/-- Embedding of one iteration of the `_run_bug_pipeline` loop
(workflow.py lines 925-995) for a single bug item.  Returns the updated
in-memory state and the stage invoked this pass (`none` if the item was
skipped before reaching `_execute_agent_flow`). -/
def bugPass (env : StageRunEnv) (timestamp : String) (state : PipeState) :
    PipeState × Option String :=
  let pending := pendingStageOf state
  if pending = "done" then (state, none)
  else if state.awaiting_human then (state, none)
  else if ¬(pending = "intake" ∨ pending = "triage" ∨ pending = "repro") then (state, none)
  else if ¬env.promptRegistered then (state, none)
  else if ¬env.contextAvailable then (state, none)
  else if ¬env.flowOk then (state, some pending)
  else
    match updateBugStateAfterStage pending env.file timestamp state with
    | .error _ => (state, some pending)
    | .ok state' => (state', some pending)

/-- Embedding of one iteration of the `_run_feedback_pipeline` loop
(workflow.py lines 1011-1081) for a single feedback item. -/
def feedbackPass (env : StageRunEnv) (timestamp : String) (state : PipeState) :
    PipeState × Option String :=
  let pending := pendingStageOf state
  if pending = "done" then (state, none)
  else if state.awaiting_human then (state, none)
  else if ¬(pending = "intake" ∨ pending = "review" ∨ pending = "plan") then (state, none)
  else if ¬env.promptRegistered then (state, none)
  else if ¬env.contextAvailable then (state, none)
  else if ¬env.flowOk then (state, some pending)
  else
    match updateFeedbackStateAfterStage pending env.file timestamp state with
    | .error _ => (state, some pending)
    | .ok state' => (state', some pending)

/-- Iterated scheduling passes over one bug item, collecting every stage
invocation across passes. -/
def bugPasses : List (StageRunEnv × String) → PipeState → PipeState × List String
  | [], s => (s, [])
  | (e, t) :: rest, s =>
    let step := bugPass e t s
    let tail := bugPasses rest step.1
    (tail.1, (match step.2 with | none => tail.2 | some stage => stage :: tail.2))

/-- Iterated scheduling passes over one feedback item. -/
def feedbackPasses : List (StageRunEnv × String) → PipeState → PipeState × List String
  | [], s => (s, [])
  | (e, t) :: rest, s =>
    let step := feedbackPass e t s
    let tail := feedbackPasses rest step.1
    (tail.1, (match step.2 with | none => tail.2 | some stage => stage :: tail.2))

/-! # Lemmas and theorems -/

theorem listMin_mem : ∀ {l : List String} {m : String}, listMin l = some m → m ∈ l := by
  intro l
  induction l with
  | nil => intro m h; simp [listMin] at h
  | cons x rest ih =>
    intro m h
    simp only [listMin] at h
    rcases h0 : listMin rest with _ | m0
    · rw [h0] at h; dsimp only at h; simp at h; simp [h]
    · rw [h0] at h
      dsimp only at h
      by_cases hc : strLe x m0 = true
      · rw [if_pos hc] at h
        simp only [Option.some.injEq] at h
        simp [h]
      · rw [if_neg hc] at h
        simp only [Option.some.injEq] at h
        subst h
        exact List.mem_cons_of_mem x (ih h0)

theorem removeFirst_length {x : String} :
    ∀ {l : List String}, x ∈ l → (removeFirst x l).length + 1 = l.length := by
  intro l
  induction l with
  | nil => intro h; simp at h
  | cons y rest ih =>
    intro h
    by_cases hy : y = x
    · simp [removeFirst, hy]
    · have hx : x ∈ rest := by
        rcases List.mem_cons.mp h with h1 | h1
        · exact absurd h1.symm hy
        · exact h1
      simp only [removeFirst, if_neg hy, List.length_cons]
      rw [← ih hx]

theorem sumToNat_aset_dec_le (k : String) (l : List (String × Int)) :
    sumToNat (aset k (fun v => v - 1) l) ≤ sumToNat l := by
  induction l with
  | nil => simp [aset]
  | cons p rest ih =>
    obtain ⟨k0, v⟩ := p
    simp only [aset]
    by_cases hk : k0 = k
    · simp only [if_pos hk, sumToNat, List.map_cons, List.sum_cons]
      have hle : (v - 1).toNat ≤ v.toNat := Int.toNat_le_toNat (by omega)
      omega
    · simp only [if_neg hk, sumToNat, List.map_cons, List.sum_cons]
      simp only [sumToNat] at ih
      omega

theorem sumToNat_aset_dec_lt (k : String) (l : List (String × Int))
    (h : alookup k (aset k (fun v => v - 1) l) = some 0) :
    sumToNat (aset k (fun v => v - 1) l) + 1 ≤ sumToNat l := by
  induction l with
  | nil => simp [aset, alookup] at h
  | cons p rest ih =>
    obtain ⟨k0, v⟩ := p
    simp only [aset] at h ⊢
    by_cases hk : k0 = k
    · subst hk
      simp only [eq_self_iff_true, if_true] at h ⊢
      simp only [alookup, eq_self_iff_true, if_true, Option.some.injEq] at h
      have hv : v = 1 := by omega
      subst hv
      simp only [sumToNat, List.map_cons, List.sum_cons]
      have : ((1 : Int) - 1).toNat = 0 := rfl
      have h1 : ((1 : Int)).toNat = 1 := rfl
      omega
    · simp only [if_neg hk] at h ⊢
      simp only [alookup, if_neg hk] at h
      have := ih h
      simp only [sumToNat, List.map_cons, List.sum_cons] at *
      omega

theorem relaxNeighbors_measure : ∀ (ns : List String) (indeg : List (String × Int))
    (ready : List String),
    (relaxNeighbors ns indeg ready).2.length + sumToNat (relaxNeighbors ns indeg ready).1 ≤
      ready.length + sumToNat indeg := by
  intro ns
  induction ns with
  | nil => intro indeg ready; simp [relaxNeighbors]
  | cons n rest ih =>
    intro indeg ready
    simp only [relaxNeighbors]
    by_cases h : alookup n (aset n (fun v => v - 1) indeg) = some 0
    · simp only [if_pos h]
      have h1 := ih (aset n (fun v => v - 1) indeg) (ready ++ [n])
      have h2 := sumToNat_aset_dec_lt n indeg h
      simp only [List.length_append, List.length_cons, List.length_nil] at h1
      omega
    · simp only [if_neg h]
      have h1 := ih (aset n (fun v => v - 1) indeg) ready
      have h2 := sumToNat_aset_dec_le n indeg
      omega

/-! ## C10: a successful run with no session marker echoes `resume_session` -/

/-- C10: if a gateway invocation exits successfully but its raw output has
no line starting (case-insensitively, after stripping) with `session id:`
or `thread id:`, then `_extract_session_id` yields `None` and the run
result's session id is exactly the `resume_session` the invocation was
called with — the caller's previous (possibly stale) token is silently
carried forward instead of the result reporting that no session exists. -/
theorem c10_no_marker_echoes_resume (lines : List String) (resume : Option String)
    (h : ∀ l ∈ lines, pyStartsWith (pyLower (pyStrip l)) "session id:" = false ∧
      pyStartsWith (pyLower (pyStrip l)) "thread id:" = false) :
    extract_session_id lines = none ∧ runSessionId lines resume = resume := by
  have hex : extract_session_id lines = none := by
    induction lines with
    | nil => rfl
    | cons l rest ih =>
      have hl := h l (List.mem_cons_self l rest)
      simp only [extract_session_id]
      rw [if_neg (by simp [hl.1]), if_neg (by simp [hl.2])]
      exact ih (fun x hx => h x (List.mem_cons_of_mem l hx))
  refine ⟨hex, ?_⟩
  simp [runSessionId, hex, pyOrOpt]

/-- Witness for C10 at a concrete markerless transcript. -/
theorem c10_no_marker_echoes_resume_witness :
    extract_session_id ["codex", "All done.", "tokens used"] = none ∧
      runSessionId ["codex", "All done.", "tokens used"] (some "sess-1") = some "sess-1" :=
  c10_no_marker_echoes_resume ["codex", "All done.", "tokens used"] (some "sess-1")
    (by intro l hl; fin_cases hl <;> exact ⟨by decide, by decide⟩)

/-! ## C8/C9: stage pipeline pause and terminal transitions -/

theorem bugPass_skip {s : PipeState} (e : StageRunEnv) (ts : String)
    (h : pendingStageOf s = "done" ∨ s.awaiting_human = true) :
    bugPass e ts s = (s, none) := by
  by_cases hd : pendingStageOf s = "done"
  · simp [bugPass, hd]
  · rcases h with h | h
    · exact absurd h hd
    · simp [bugPass, hd, h]

theorem feedbackPass_skip {s : PipeState} (e : StageRunEnv) (ts : String)
    (h : pendingStageOf s = "done" ∨ s.awaiting_human = true) :
    feedbackPass e ts s = (s, none) := by
  by_cases hd : pendingStageOf s = "done"
  · simp [feedbackPass, hd]
  · rcases h with h | h
    · exact absurd h hd
    · simp [feedbackPass, hd, h]

theorem bugPasses_skip {s : PipeState}
    (h : pendingStageOf s = "done" ∨ s.awaiting_human = true) :
    ∀ passes, bugPasses passes s = (s, []) := by
  intro passes
  induction passes with
  | nil => rfl
  | cons p rest ih =>
    obtain ⟨e, ts⟩ := p
    simp [bugPasses, bugPass_skip e ts h, ih]

theorem feedbackPasses_skip {s : PipeState}
    (h : pendingStageOf s = "done" ∨ s.awaiting_human = true) :
    ∀ passes, feedbackPasses passes s = (s, []) := by
  intro passes
  induction passes with
  | nil => rfl
  | cons p rest ih =>
    obtain ⟨e, ts⟩ := p
    simp [feedbackPasses, feedbackPass_skip e ts h, ih]

theorem pyOrStr_some_ne (s d : String) (h : ¬ s = "") : pyOrStr (some s) d = s := by
  simp [pyOrStr, h]

theorem pyLower_needs_info : pyLower "needs_info" = "needs_info" := by decide

theorem pyLower_duplicate : pyLower "duplicate" = "duplicate" := by decide

theorem pyLower_rejected : pyLower "rejected" = "rejected" := by decide

theorem pyLower_blocked : pyLower "blocked" = "blocked" := by decide

/-- Counterexample to C8 as stated: at the `repro` stage of the bug
pipeline a `needs_info` result does not re-enter `repro` with
`awaiting_human = true`; the code's `else` branch moves the item to
`done` with `awaiting_human = false`. -/
theorem c8_counterexample_repro_needs_info_goes_done :
    ∃ s', updateBugStateAfterStage "repro" (.content (some "needs_info")) "t0"
        ⟨some "repro", false, none, []⟩ = .ok s' ∧
      ¬ (s'.pending_stage = some "repro" ∧ s'.awaiting_human = true) ∧
      s'.pending_stage = some "done" ∧ s'.awaiting_human = false := by
  refine ⟨⟨some "done", false, none, [⟨"repro", "needs_info", "t0"⟩]⟩, ?_, ?_, rfl, rfl⟩
  · simp [updateBugStateAfterStage, pyOrStr_some_ne, pyLower_needs_info]
  · simp

/-- C8 as amended: a `needs_info` stage result re-enters the same stage
with `awaiting_human = true` at the intake and triage stages of the bug
pipeline and the intake and review stages of the feedback pipeline; at the
final stages (bug `repro`, feedback `plan`) only `blocked` pauses, and
`needs_info` (like any other non-`blocked` status) moves the item to
`done` without the flag.  An item with `awaiting_human = true` is skipped
unchanged on every subsequent scheduling pass (no stage is ever invoked)
until externally cleared. -/
theorem c8_needs_info_pauses_and_awaiting_skips :
    (∀ stage, (stage = "intake" ∨ stage = "triage") →
      ∀ ts s, ∃ s', updateBugStateAfterStage stage (.content (some "needs_info")) ts s = .ok s' ∧
        s'.pending_stage = some stage ∧ s'.awaiting_human = true ∧
        s'.awaiting_reason = some "needs_info") ∧
    (∀ stage, (stage = "intake" ∨ stage = "review") →
      ∀ ts s, ∃ s', updateFeedbackStateAfterStage stage (.content (some "needs_info")) ts s = .ok s' ∧
        s'.pending_stage = some stage ∧ s'.awaiting_human = true ∧
        s'.awaiting_reason = some "needs_info") ∧
    (∀ ts s, ∃ s', updateBugStateAfterStage "repro" (.content (some "needs_info")) ts s = .ok s' ∧
      s'.pending_stage = some "done" ∧ s'.awaiting_human = false) ∧
    (∀ ts s, ∃ s', updateFeedbackStateAfterStage "plan" (.content (some "needs_info")) ts s = .ok s' ∧
      s'.pending_stage = some "done" ∧ s'.awaiting_human = false) ∧
    (∀ stage, (stage = "repro" ∨ stage = "plan") → ∀ ts s,
      (if stage = "repro"
        then updateBugStateAfterStage stage (.content (some "blocked")) ts s
        else updateFeedbackStateAfterStage stage (.content (some "blocked")) ts s) =
        .ok ⟨some stage, true, some "blocked", s.history ++ [⟨stage, "blocked", ts⟩]⟩) ∧
    (∀ s : PipeState, s.awaiting_human = true →
      ∀ passes, bugPasses passes s = (s, []) ∧ feedbackPasses passes s = (s, [])) := by
  refine ⟨?_, ?_, ?_, ?_, ?_, ?_⟩
  · intro stage h ts s
    rcases h with rfl | rfl
    · refine ⟨⟨some "intake", true, some "needs_info",
          s.history ++ [⟨"intake", "needs_info", ts⟩]⟩, ?_, rfl, rfl, rfl⟩
      simp [updateBugStateAfterStage, pyOrStr_some_ne, pyLower_needs_info]
    · refine ⟨⟨some "triage", true, some "needs_info",
          s.history ++ [⟨"triage", "needs_info", ts⟩]⟩, ?_, rfl, rfl, rfl⟩
      simp [updateBugStateAfterStage, pyOrStr_some_ne, pyLower_needs_info]
  · intro stage h ts s
    rcases h with rfl | rfl
    · refine ⟨⟨some "intake", true, some "needs_info",
          s.history ++ [⟨"intake", "needs_info", ts⟩]⟩, ?_, rfl, rfl, rfl⟩
      simp [updateFeedbackStateAfterStage, pyOrStr_some_ne, pyLower_needs_info]
    · refine ⟨⟨some "review", true, some "needs_info",
          s.history ++ [⟨"review", "needs_info", ts⟩]⟩, ?_, rfl, rfl, rfl⟩
      simp [updateFeedbackStateAfterStage, pyOrStr_some_ne, pyLower_needs_info]
  · intro ts s
    refine ⟨⟨some "done", false, none, s.history ++ [⟨"repro", "needs_info", ts⟩]⟩,
      ?_, rfl, rfl⟩
    simp [updateBugStateAfterStage, pyOrStr_some_ne, pyLower_needs_info]
  · intro ts s
    refine ⟨⟨some "done", false, none, s.history ++ [⟨"plan", "needs_info", ts⟩]⟩,
      ?_, rfl, rfl⟩
    simp [updateFeedbackStateAfterStage, pyOrStr_some_ne, pyLower_needs_info]
  · intro stage h ts s
    rcases h with rfl | rfl
    · simp [updateBugStateAfterStage, pyOrStr_some_ne, pyLower_blocked]
    · simp [updateFeedbackStateAfterStage, pyOrStr_some_ne, pyLower_blocked]
  · intro s hs passes
    exact ⟨bugPasses_skip (Or.inr hs) passes, feedbackPasses_skip (Or.inr hs) passes⟩

/-- Witness for the amended C8 at the triage stage, a concrete state and
one pass. -/
theorem c8_needs_info_pauses_and_awaiting_skips_witness :
    (∃ s', updateBugStateAfterStage "triage" (.content (some "needs_info")) "t0"
        ⟨some "triage", false, none, []⟩ = .ok s' ∧
      s'.pending_stage = some "triage" ∧ s'.awaiting_human = true ∧
      s'.awaiting_reason = some "needs_info") ∧
    bugPasses [(⟨true, true, true, .content (some "triaged")⟩, "t1")]
      ⟨some "triage", true, some "needs_info", []⟩ =
      (⟨some "triage", true, some "needs_info", []⟩, []) := by
  constructor
  · exact c8_needs_info_pauses_and_awaiting_skips.1 "triage" (by simp) "t0"
      ⟨some "triage", false, none, []⟩
  · exact (c8_needs_info_pauses_and_awaiting_skips.2.2.2.2.2
      ⟨some "triage", true, some "needs_info", []⟩ rfl
      [(⟨true, true, true, .content (some "triaged")⟩, "t1")]).1

/-- C9: a bug item whose triage result has status `duplicate` (or
`rejected`) moves its `pending_stage` directly to `done` with the
`awaiting_human` flag cleared, and no stage — in particular never the
`repro` stage — is invoked for that item on any subsequent pipeline pass. -/
theorem c9_triage_duplicate_skips_repro :
    ∀ status, (status = "duplicate" ∨ status = "rejected") →
    ∀ ts s, ∃ s', updateBugStateAfterStage "triage" (.content (some status)) ts s = .ok s' ∧
      s'.pending_stage = some "done" ∧ s'.awaiting_human = false ∧
      s'.awaiting_reason = none ∧
      ∀ passes, bugPasses passes s' = (s', []) := by
  intro status h ts s
  rcases h with rfl | rfl
  · refine ⟨⟨some "done", false, none, s.history ++ [⟨"triage", "duplicate", ts⟩]⟩,
      ?_, rfl, rfl, rfl,
      fun passes => bugPasses_skip (Or.inl (by simp [pendingStageOf, pyOrStr])) passes⟩
    simp [updateBugStateAfterStage, pyOrStr_some_ne, pyLower_duplicate]
  · refine ⟨⟨some "done", false, none, s.history ++ [⟨"triage", "rejected", ts⟩]⟩,
      ?_, rfl, rfl, rfl,
      fun passes => bugPasses_skip (Or.inl (by simp [pendingStageOf, pyOrStr])) passes⟩
    simp [updateBugStateAfterStage, pyOrStr_some_ne, pyLower_rejected]

/-- Witness for C9 on a concrete duplicate triage result and one pass. -/
theorem c9_triage_duplicate_skips_repro_witness :
    ∃ s', updateBugStateAfterStage "triage" (.content (some "duplicate")) "t0"
        ⟨some "triage", false, none, []⟩ = .ok s' ∧
      s'.pending_stage = some "done" ∧ s'.awaiting_human = false ∧
      s'.awaiting_reason = none ∧
      ∀ passes, bugPasses passes s' = (s', []) :=
  c9_triage_duplicate_skips_repro "duplicate" (Or.inl rfl) "t0"
    ⟨some "triage", false, none, []⟩

/-! ## Trail-counting lemmas for the execution flow -/

theorem invocationsOf_append (a b : List Event) :
    invocationsOf (a ++ b) = invocationsOf a ++ invocationsOf b := by
  simp [invocationsOf]

theorem roleCallCount_append (r : Role) (a b : List Event) :
    roleCallCount r (a ++ b) = roleCallCount r a + roleCallCount r b := by
  simp [roleCallCount, invocationsOf_append]

theorem roleCallCount_recordCall_ne (r : Role) (st : FlowState) (inv : Invocation)
    (h : inv.role ≠ r) :
    roleCallCount r (st.recordCall inv).events = roleCallCount r st.events := by
  simp [FlowState.recordCall, roleCallCount_append, roleCallCount, invocationsOf, h]

theorem roleCallCount_recordCall_eq (r : Role) (st : FlowState) (inv : Invocation)
    (h : inv.role = r) :
    roleCallCount r (st.recordCall inv).events = roleCallCount r st.events + 1 := by
  simp [FlowState.recordCall, roleCallCount_append, roleCallCount, invocationsOf, h]

theorem roleCallCount_recordCheck (r : Role) (st : FlowState) (m : List String) :
    roleCallCount r (st.recordCheck m).events = roleCallCount r st.events := by
  simp [FlowState.recordCheck, roleCallCount_append, roleCallCount, invocationsOf]

theorem managerRetriesLoop_agent_count (env : Env) (a : Nat) :
    ∀ (remaining : Nat) (st : FlowState) (session : Option String),
    roleCallCount .agent (managerRetriesLoop env a remaining st session).state.events =
      roleCallCount .agent st.events := by
  intro remaining
  induction remaining with
  | zero => intro st session; rfl
  | succ r ih =>
    intro st session
    simp only [managerRetriesLoop, doRun]
    by_cases hok : (env.gateway st.calls).exitOk
    · rcases hv : (env.gateway st.calls).verdict with _ | v
      · by_cases hr : r = 0
        · subst hr
          simp [hok, hv, MgrResult.state, roleCallCount_recordCall_ne]
        · simp [hok, hv, hr, ih, roleCallCount_recordCall_ne]
      · simp [hok, hv, MgrResult.state, roleCallCount_recordCall_ne]
    · simp only [Bool.not_eq_true] at hok
      by_cases hr : r = 0
      · subst hr
        simp [hok, MgrResult.state, roleCallCount_recordCall_ne]
      · simp [hok, hr, ih, roleCallCount_recordCall_ne]

theorem qaRetriesLoop_agent_count (env : Env) :
    ∀ (remaining attempt : Nat) (st : FlowState) (session : Option String),
    roleCallCount .agent (qaRetriesLoop env remaining attempt st session).state.events =
      roleCallCount .agent st.events := by
  intro remaining
  induction remaining with
  | zero => intro attempt st session; rfl
  | succ r ih =>
    intro attempt st session
    simp only [qaRetriesLoop, doRun]
    by_cases hok : (env.gateway st.calls).exitOk
    · rcases hv : (env.gateway st.calls).verdict with _ | v
      · by_cases hr : r = 0
        · subst hr
          simp [hok, hv, QaResult.state, roleCallCount_recordCall_ne]
        · simp [hok, hv, hr, ih, roleCallCount_recordCall_ne]
      · simp [hok, hv, QaResult.state, roleCallCount_recordCall_ne]
    · simp only [Bool.not_eq_true] at hok
      by_cases hr : r = 0
      · subst hr
        simp [hok, QaResult.state, roleCallCount_recordCall_ne]
      · simp [hok, hr, ih, roleCallCount_recordCall_ne]

theorem managerCycle_agent_count (env : Env) (cfg : Config) (ip : String)
    (asess : Option String) :
    ∀ (budget attempt : Nat) (st : FlowState) (msession : Option String)
      (cqr : Option Verdict) (qfc : Nat) (qsession : Option String),
    roleCallCount .agent
      (managerCycle env cfg ip asess budget attempt st msession cqr qfc qsession).state.events =
      roleCallCount .agent st.events := by
  intro budget
  induction budget with
  | zero =>
    intro attempt st msession cqr qfc qsession
    have hms := managerRetriesLoop_agent_count env attempt (cfg.managerRetryLimit + 1) st msession
    simp only [managerCycle]
    rcases hm : managerRetriesLoop env attempt (cfg.managerRetryLimit + 1) st msession
      with ⟨review, res, st'⟩ | ⟨o, st'⟩ <;> rw [hm] at hms <;>
      simp only [MgrResult.state] at hms
    · by_cases hp : statusNorm review = "pass"
      · simp [hp, validateBacklogResourceConstraints, CycleResult.state, hms]
      · simp [hp, CycleResult.state, hms]
    · simp [CycleResult.state, hms]
  | succ b ih =>
    intro attempt st msession cqr qfc qsession
    have hms := managerRetriesLoop_agent_count env attempt (cfg.managerRetryLimit + 1) st msession
    rw [managerCycle]
    rcases hm : managerRetriesLoop env attempt (cfg.managerRetryLimit + 1) st msession
      with ⟨review, res, st'⟩ | ⟨o, st'⟩ <;> rw [hm] at hms <;>
      simp only [MgrResult.state] at hms
    · by_cases hp : statusNorm review = "pass"
      · simp [hp, validateBacklogResourceConstraints, CycleResult.state, hms]
      · by_cases hqa : nextActorNorm review = "qa" ∧ cfg.enableQa
        · have hqs := qaRetriesLoop_agent_count env (cfg.qaRetryLimit + 1) (qfc + 1) st' qsession
          rcases hq : qaRetriesLoop env (cfg.qaRetryLimit + 1) (qfc + 1) st' qsession
            with ⟨qaReview, qaRes, attemptUsed, st''⟩ | ⟨o, st''⟩ <;> rw [hq] at hqs <;>
            simp only [QaResult.state] at hqs
          · by_cases hqp : statusNorm qaReview = "pass"
            · have hih := ih (attempt + 1) st'' res.sessionId (some qaReview) attemptUsed
                qaRes.sessionId
              rcases hc : managerCycle env cfg ip asess b (attempt + 1) st'' res.sessionId
                  (some qaReview) attemptUsed qaRes.sessionId with st3 | ⟨p, st3⟩ | ⟨o, st3⟩ <;>
                rw [hc] at hih <;> simp only [CycleResult.state] at hih <;>
                simp [hp, hqa, hqp, hq, hc, CycleResult.state, hih, hqs, hms]
            · simp [hp, hqa, hqp, hq, CycleResult.state, hqs, hms]
          · simp [hp, hqa, hq, CycleResult.state, hqs, hms]
        · simp [hp, hqa, CycleResult.state, hms]
    · simp [CycleResult.state, hms]

theorem doRun_agent_count (env : Env) (st : FlowState) (a : Nat) (p : Option String)
    (s : Option String) :
    roleCallCount .agent (doRun env st .agent a p s).2.events =
      roleCallCount .agent st.events + 1 := by
  simp only [doRun]
  by_cases hok : (env.gateway st.calls).exitOk
  · simp only [hok, if_true, reduceIte]
    exact roleCallCount_recordCall_eq _ _ _ rfl
  · simp only [Bool.not_eq_true] at hok
    simp only [hok, reduceIte]
    exact roleCallCount_recordCall_eq _ _ _ rfl

theorem agentLoop_agent_count_le (env : Env) (cfg : Config) (ip : String) :
    ∀ (remaining attempt : Nat) (prompt : String) (sess : Option String) (st : FlowState),
    roleCallCount .agent (agentLoop env cfg ip remaining attempt prompt sess st).2.events ≤
      roleCallCount .agent st.events + remaining := by
  intro remaining
  induction remaining with
  | zero => intro attempt prompt sess st; simp [agentLoop]
  | succ r ih =>
    intro attempt prompt sess st
    rw [agentLoop]
    have hdr := doRun_agent_count env st attempt (some prompt) sess
    rcases hrun : doRun env st .agent attempt (some prompt) sess with ⟨ores, st'⟩
    rw [hrun] at hdr
    dsimp only at hdr
    rcases ores with _ | agentRes
    · dsimp only
      by_cases hr0 : r = 0
      · subst hr0
        rw [if_pos rfl]
        dsimp only
        omega
      · rw [if_neg hr0]
        have := ih (attempt + 1) prompt none st'
        omega
    · dsimp only
      have hchk := roleCallCount_recordCheck .agent st' (env.missing st'.checks)
      by_cases hmiss : env.missing st'.checks ≠ []
      · rw [if_pos hmiss]
        have := ih (attempt + 1)
          (buildMissingDeliverablesPrompt ip (env.missing st'.checks)) agentRes.sessionId
          (st'.recordCheck (env.missing st'.checks))
        omega
      · rw [if_neg hmiss]
        by_cases hqa : cfg.enableQa
        · rw [if_pos hqa]
          have hqc := qaRetriesLoop_agent_count env (cfg.qaRetryLimit + 1) 1
            (st'.recordCheck (env.missing st'.checks)) none
          rcases hq : qaRetriesLoop env (cfg.qaRetryLimit + 1) 1
              (st'.recordCheck (env.missing st'.checks)) none
            with ⟨qaReview, qaRes, aU, st3⟩ | ⟨o, st3⟩ <;> rw [hq] at hqc <;>
            simp only [QaResult.state] at hqc
          · dsimp only
            by_cases hqp : statusNorm qaReview ≠ "pass"
            · rw [if_pos hqp]
              dsimp only
              have := ih (attempt + 1) (buildRetryPrompt ip qaReview.issues)
                agentRes.sessionId st3
              omega
            · rw [if_neg hqp]
              dsimp only
              rw [if_pos hqa]
              have hmc := managerCycle_agent_count env cfg ip agentRes.sessionId
                cfg.managerRetryLimit 1 st3 none (some qaReview) (max aU 1) qaRes.sessionId
              rcases hc : managerCycle env cfg ip agentRes.sessionId cfg.managerRetryLimit 1
                  st3 none (some qaReview) (max aU 1) qaRes.sessionId
                with st4 | ⟨np, st4⟩ | ⟨o, st4⟩ <;> rw [hc] at hmc <;>
                simp only [CycleResult.state] at hmc <;> dsimp only
              · omega
              · have := ih (attempt + 1) np agentRes.sessionId st4
                omega
              · omega
          · dsimp only
            omega
        · rw [if_neg hqa]
          dsimp only
          rw [if_neg hqa]
          have hmc := managerCycle_agent_count env cfg ip agentRes.sessionId
            cfg.managerRetryLimit 1 (st'.recordCheck (env.missing st'.checks)) none none 0 none
          rcases hc : managerCycle env cfg ip agentRes.sessionId cfg.managerRetryLimit 1
              (st'.recordCheck (env.missing st'.checks)) none none 0 none
            with st4 | ⟨np, st4⟩ | ⟨o, st4⟩ <;> rw [hc] at hmc <;>
            simp only [CycleResult.state] at hmc <;> dsimp only
          · omega
          · have := ih (attempt + 1) np agentRes.sessionId st4
            omega
          · omega

/-- C2: with `agentRetries = 2` and a gateway that fails transport twice
then succeeds, the flow reaches the acceptance check immediately after the
third agent invocation (the event trail is exactly two failed agent calls,
one successful agent call, the deliverables check, and the manager pass)
and the agent gateway is invoked exactly 3 times; when every invocation
fails, the flow terminates `agentExhausted` after exactly 3 agent
invocations; and in general any flow performs at most
`agentRetries + 1` agent-gateway invocations. -/
theorem c2_agent_retry_budget :
    ((executeAgentFlow
        (envOfList [gwFail, gwFail, gwOk "a1" none, gwOk "m1" (some passVerdict)] [])
        ⟨2, 0, 0, false, false⟩ "P").1 = .accepted ∧
      (executeAgentFlow
        (envOfList [gwFail, gwFail, gwOk "a1" none, gwOk "m1" (some passVerdict)] [])
        ⟨2, 0, 0, false, false⟩ "P").2.events =
        [.call ⟨.agent, none, 1, false, none, some "P"⟩,
         .call ⟨.agent, none, 2, false, none, some "P"⟩,
         .call ⟨.agent, none, 3, true, some "a1", some "P"⟩,
         .check [],
         .call ⟨.manager, none, 1, true, some "m1", none⟩]) ∧
    ((executeAgentFlow (envOfList [] []) ⟨2, 0, 0, false, false⟩ "P").1 = .agentExhausted ∧
      roleCallCount .agent
        (executeAgentFlow (envOfList [] []) ⟨2, 0, 0, false, false⟩ "P").2.events = 3) ∧
    (∀ (env : Env) (cfg : Config) (prompt : String),
      roleCallCount .agent (executeAgentFlow env cfg prompt).2.events ≤
        cfg.agentRetryLimit + 1) := by
  refine ⟨⟨by decide, by decide⟩, ⟨by decide, by decide⟩, ?_⟩
  intro env cfg prompt
  have h := agentLoop_agent_count_le env cfg prompt (cfg.agentRetryLimit + 1) 1 prompt none
    { calls := 0, checks := 0, events := [] }
  simpa [executeAgentFlow, roleCallCount, invocationsOf] using h

/-- C3: when an agent invocation succeeds at the gateway but deliverables
are missing, the flow re-enters the agent phase with the corrective prompt
listing exactly the missing deliverables, resuming the agent session
returned by the successful run; the step appends only the agent call and
the acceptance check to the trail — no manager or QA invocation occurs,
so the manager and QA budgets/counters are untouched and only the agent
attempt budget (`remaining`) is consumed. -/
theorem c3_missing_deliverables_loop (env : Env) (cfg : Config) (ip : String)
    (remaining attempt : Nat) (prompt : String) (sess : Option String) (st : FlowState)
    (m : List String) (hok : (env.gateway st.calls).exitOk = true)
    (hm : env.missing st.checks = m) (hne : m ≠ []) :
    agentLoop env cfg ip (remaining + 1) attempt prompt sess st =
      agentLoop env cfg ip remaining (attempt + 1)
        (buildMissingDeliverablesPrompt ip m)
        (pyOrOpt (env.gateway st.calls).marker sess)
        ((st.recordCall ⟨.agent, sess, attempt, true,
            pyOrOpt (env.gateway st.calls).marker sess, some prompt⟩).recordCheck m) ∧
    ((st.recordCall ⟨.agent, sess, attempt, true,
        pyOrOpt (env.gateway st.calls).marker sess, some prompt⟩).recordCheck m).events =
      st.events ++ [.call ⟨.agent, sess, attempt, true,
        pyOrOpt (env.gateway st.calls).marker sess, some prompt⟩, .check m] ∧
    roleCallCount .manager ((st.recordCall ⟨.agent, sess, attempt, true,
        pyOrOpt (env.gateway st.calls).marker sess, some prompt⟩).recordCheck m).events =
      roleCallCount .manager st.events ∧
    roleCallCount .qa ((st.recordCall ⟨.agent, sess, attempt, true,
        pyOrOpt (env.gateway st.calls).marker sess, some prompt⟩).recordCheck m).events =
      roleCallCount .qa st.events := by
  refine ⟨?_, ?_, ?_, ?_⟩
  · simp only [agentLoop, doRun, hok, reduceIte, FlowState.recordCall, FlowState.recordCheck]
    simp only [hm, hne, ne_eq, not_false_eq_true, reduceIte]
  · simp [FlowState.recordCall, FlowState.recordCheck]
  · rw [roleCallCount_recordCheck, roleCallCount_recordCall_ne _ _ _ (by simp)]
  · rw [roleCallCount_recordCheck, roleCallCount_recordCall_ne _ _ _ (by simp)]

/-- Witness for C3 on a concrete missing-deliverable scenario. -/
theorem c3_missing_deliverables_loop_witness :
    agentLoop (envOfList [gwOk "a1" none] [["DOCS/PRD.md"]]) ⟨1, 0, 0, false, false⟩ "P"
        2 1 "P" none { calls := 0, checks := 0, events := [] } =
      agentLoop (envOfList [gwOk "a1" none] [["DOCS/PRD.md"]]) ⟨1, 0, 0, false, false⟩ "P"
        1 2 (buildMissingDeliverablesPrompt "P" ["DOCS/PRD.md"]) (some "a1")
        (({ calls := 0, checks := 0, events := [] } :
            FlowState).recordCall ⟨.agent, none, 1, true, some "a1", some "P"⟩
          |>.recordCheck ["DOCS/PRD.md"]) := by
  have h := c3_missing_deliverables_loop (envOfList [gwOk "a1" none] [["DOCS/PRD.md"]])
    ⟨1, 0, 0, false, false⟩ "P" 1 1 "P" none { calls := 0, checks := 0, events := [] }
    ["DOCS/PRD.md"] (by decide) (by decide) (by decide)
  exact h.1

/-- Counterexample to C5 as stated: a manager output that parses but has
no `status` field is NOT treated as a parse failure — it drives a
corrective agent retry.  With verdict `{issues := ["x"]}` (status absent)
the trail shows the flow re-invoking the agent with the corrective retry
prompt built from the issues instead of retrying the manager under the
parse-failure path. -/
theorem c5_counterexample_absent_status_drives_retry :
    (executeAgentFlow
        (envOfList [gwOk "a1" none, gwOk "m1" (some ⟨none, ["x"], none⟩),
          gwOk "a2" none, gwOk "m2" (some passVerdict)] [])
        ⟨1, 1, 0, false, false⟩ "P").1 = .accepted ∧
    (executeAgentFlow
        (envOfList [gwOk "a1" none, gwOk "m1" (some ⟨none, ["x"], none⟩),
          gwOk "a2" none, gwOk "m2" (some passVerdict)] [])
        ⟨1, 1, 0, false, false⟩ "P").2.events =
      [.call ⟨.agent, none, 1, true, some "a1", some "P"⟩,
       .check [],
       .call ⟨.manager, none, 1, true, some "m1", none⟩,
       .call ⟨.agent, some "a1", 2, true, some "a2", some (buildRetryPrompt "P" ["x"])⟩,
       .check [],
       .call ⟨.manager, none, 1, true, some "m2", none⟩] := by
  exact ⟨by decide, by decide⟩

/-- C5 as amended: a reviewer output that is read successfully but whose
`status` is absent or unrecognized normalizes to a non-`pass` status and
is treated as a fail verdict: with the manager budget spent the cycle
terminates `managerExhausted`, and otherwise (next actor not QA) it
drives a corrective agent retry built from the issue list.  The
parse-failure retry path arises only when no JSON object could be
extracted (`verdict = none`), ending in `managerUnresolvedParse` when its
budget is spent. -/
theorem c5_absent_status_is_fail_not_parse_failure :
    (∀ (issues : List String) (na : Option String),
      statusNorm ⟨none, issues, na⟩ = "" ∧ statusNorm ⟨none, issues, na⟩ ≠ "pass") ∧
    (∀ (env : Env) (cfg : Config) (ip : String) (asess : Option String)
        (attempt : Nat) (st : FlowState) (msession : Option String)
        (cqr : Option Verdict) (qfc : Nat) (qsession : Option String) (v : Verdict),
      (env.gateway st.calls).exitOk = true →
      (env.gateway st.calls).verdict = some v →
      statusNorm v ≠ "pass" →
      managerCycle env cfg ip asess 0 attempt st msession cqr qfc qsession =
        .err .managerExhausted
          (st.recordCall ⟨.manager, msession, attempt, true,
            pyOrOpt (env.gateway st.calls).marker msession, none⟩)) ∧
    (∀ (env : Env) (cfg : Config) (ip : String) (asess : Option String)
        (b attempt : Nat) (st : FlowState) (msession : Option String)
        (cqr : Option Verdict) (qfc : Nat) (qsession : Option String) (v : Verdict),
      (env.gateway st.calls).exitOk = true →
      (env.gateway st.calls).verdict = some v →
      statusNorm v ≠ "pass" →
      ¬ (nextActorNorm v = "qa" ∧ cfg.enableQa) →
      managerCycle env cfg ip asess (b + 1) attempt st msession cqr qfc qsession =
        .toAgent (buildRetryPrompt ip v.issues)
          (st.recordCall ⟨.manager, msession, attempt, true,
            pyOrOpt (env.gateway st.calls).marker msession, none⟩)) ∧
    (∀ (env : Env) (a : Nat) (st : FlowState) (session : Option String),
      (env.gateway st.calls).exitOk = true →
      (env.gateway st.calls).verdict = none →
      managerRetriesLoop env a 1 st session =
        .err .managerUnresolvedParse
          (st.recordCall ⟨.manager, session, a, true,
            pyOrOpt (env.gateway st.calls).marker session, none⟩)) := by
  refine ⟨?_, ?_, ?_, ?_⟩
  · intro issues na
    refine ⟨rfl, ?_⟩
    intro h
    exact absurd h (by simp [statusNorm, pyOrStr, pyLower])
  · intro env cfg ip asess attempt st msession cqr qfc qsession v hok hv hs
    rw [managerCycle]
    simp only [managerRetriesLoop, doRun, hok, hv, reduceIte]
    simp [hs]
  · intro env cfg ip asess b attempt st msession cqr qfc qsession v hok hv hs hqa
    rw [managerCycle]
    simp only [managerRetriesLoop, doRun, hok, hv, reduceIte]
    simp [hs, hqa]
  · intro env a st session hok hv
    simp only [managerRetriesLoop, doRun, hok, hv, reduceIte]

/-- Witness for the amended C5 at a concrete status-absent verdict. -/
theorem c5_absent_status_is_fail_not_parse_failure_witness :
    statusNorm ⟨none, ["x"], none⟩ ≠ "pass" ∧
    managerCycle (envOfList [gwOk "m1" (some ⟨none, ["x"], none⟩)] [])
        ⟨0, 0, 0, false, false⟩ "P" none 0 1
        { calls := 0, checks := 0, events := [] } none none 0 none =
      .err .managerExhausted
        (FlowState.recordCall { calls := 0, checks := 0, events := [] }
          ⟨.manager, none, 1, true, some "m1", none⟩) ∧
    managerRetriesLoop (envOfList [gwOk "m1" none] []) 1 1
        { calls := 0, checks := 0, events := [] } none =
      .err .managerUnresolvedParse
        (FlowState.recordCall { calls := 0, checks := 0, events := [] }
          ⟨.manager, none, 1, true, some "m1", none⟩) := by
  refine ⟨(c5_absent_status_is_fail_not_parse_failure.1 ["x"] none).2, ?_, ?_⟩
  · exact c5_absent_status_is_fail_not_parse_failure.2.1
      (envOfList [gwOk "m1" (some ⟨none, ["x"], none⟩)] []) ⟨0, 0, 0, false, false⟩
      "P" none 1 { calls := 0, checks := 0, events := [] } none none 0 none
      ⟨none, ["x"], none⟩ (by decide) (by decide) (by decide)
  · exact c5_absent_status_is_fail_not_parse_failure.2.2.2
      (envOfList [gwOk "m1" none] []) 1 { calls := 0, checks := 0, events := [] } none
      (by decide) (by decide)

/-- Counterexample to C4's conclusion that manager↔QA ping-pong "cannot
exceed the global QA budget": with `qaRetries = 1` (QA budget 2) and
`managerRetries = 5`, three manager `fail(next_actor=qa)` verdicts each
followed by a passing QA review yield 4 QA gateway invocations in one
flow — more than `qaRetries + 1` — and the flow still terminates
`accepted`.  The shared QA-attempt counter only sequences labels; the
ping-pong is bounded by the manager budget, not the QA budget. -/
theorem c4_counterexample_pingpong_exceeds_qa_budget :
    (executeAgentFlow
        (envOfList [gwOk "a1" none, gwOk "q1" (some passVerdict),
          gwOk "m1" (some ⟨some "fail", ["i1"], some "qa"⟩), gwOk "q2" (some passVerdict),
          gwOk "m2" (some ⟨some "fail", ["i2"], some "qa"⟩), gwOk "q3" (some passVerdict),
          gwOk "m3" (some ⟨some "fail", ["i3"], some "qa"⟩), gwOk "q4" (some passVerdict),
          gwOk "m4" (some passVerdict)] [])
        ⟨0, 5, 1, true, false⟩ "P").1 = .accepted ∧
    roleCallCount .qa
      (executeAgentFlow
        (envOfList [gwOk "a1" none, gwOk "q1" (some passVerdict),
          gwOk "m1" (some ⟨some "fail", ["i1"], some "qa"⟩), gwOk "q2" (some passVerdict),
          gwOk "m2" (some ⟨some "fail", ["i2"], some "qa"⟩), gwOk "q3" (some passVerdict),
          gwOk "m3" (some ⟨some "fail", ["i3"], some "qa"⟩), gwOk "q4" (some passVerdict),
          gwOk "m4" (some passVerdict)] [])
        ⟨0, 5, 1, true, false⟩ "P").2.events = 4 ∧
    4 > 1 + 1 := by
  exact ⟨by decide, by decide, by decide⟩

/-- C4 as amended: with QA enabled and `qaRetries = 1`, on the verdict
sequence `fail(next_actor=qa), pass` the QA reviewer is invoked exactly
once between the two manager reviews, and the QA-attempt counter used for
that invocation (`attempt = 2`) is the shared counter continued from the
initial QA review (`attempt = 1`), not reset between manager cycles; the
counter sequences attempt labels only and does not bound the number of QA
invocations across manager cycles (which the manager budget bounds). -/
theorem c4_qa_pingpong_shared_counter :
    (executeAgentFlow
        (envOfList [gwOk "a1" none, gwOk "q1" (some passVerdict),
          gwOk "m1" (some ⟨some "fail", ["i1"], some "qa"⟩), gwOk "q2" (some passVerdict),
          gwOk "m2" (some passVerdict)] [])
        ⟨0, 3, 1, true, false⟩ "P").1 = .accepted ∧
    (executeAgentFlow
        (envOfList [gwOk "a1" none, gwOk "q1" (some passVerdict),
          gwOk "m1" (some ⟨some "fail", ["i1"], some "qa"⟩), gwOk "q2" (some passVerdict),
          gwOk "m2" (some passVerdict)] [])
        ⟨0, 3, 1, true, false⟩ "P").2.events =
      [.call ⟨.agent, none, 1, true, some "a1", some "P"⟩,
       .check [],
       .call ⟨.qa, none, 1, true, some "q1", none⟩,
       .call ⟨.manager, none, 1, true, some "m1", none⟩,
       .call ⟨.qa, some "q1", 2, true, some "q2", none⟩,
       .call ⟨.manager, some "m1", 2, true, some "m2", none⟩] := by
  exact ⟨by decide, by decide⟩

/-! ## Session-continuity lemmas (C1) -/

theorem contCheck_append (l1 : List Invocation) :
    ∀ (cs : ContState) (l2 : List Invocation),
    contCheck cs (l1 ++ l2) = (contCheck cs l1 && contCheck (contFold cs l1) l2) := by
  induction l1 with
  | nil => intro cs l2; simp [contCheck, contFold]
  | cons i rest ih =>
    intro cs l2
    simp only [List.cons_append, contCheck, contFold, List.foldl_cons, List.append_eq]
    rw [ih]
    simp [contFold, Bool.and_assoc]

theorem trailOK_recordCall {st : FlowState} {cs : ContState} (inv : Invocation)
    (h : trailOK st cs) (hres : inv.resume = cs.expFor inv.role) :
    trailOK (st.recordCall inv) (contUpdate cs inv) := by
  obtain ⟨hchk, hfold⟩ := h
  constructor
  · simp only [FlowState.recordCall, invocationsOf_append, contCheck_append, hchk, hfold,
      Bool.true_and]
    simp [invocationsOf, contCheck, hres]
  · simp only [FlowState.recordCall, invocationsOf_append, contFold, List.foldl_append]
    simp only [contFold] at hfold
    rw [hfold]
    rfl

theorem trailOK_recordCheck {st : FlowState} {cs : ContState} (m : List String)
    (h : trailOK st cs) : trailOK (st.recordCheck m) cs := by
  obtain ⟨hchk, hfold⟩ := h
  constructor
  · simpa [FlowState.recordCheck, invocationsOf_append, contCheck_append, invocationsOf,
      contCheck] using hchk
  · simpa [FlowState.recordCheck, invocationsOf_append, contFold, List.foldl_append,
      invocationsOf] using hfold

theorem qaRetriesLoop_cont (env : Env) :
    ∀ (remaining attempt : Nat) (st : FlowState) (session : Option String) (cs : ContState),
    trailOK st cs → session = cs.qaExp →
    (match qaRetriesLoop env remaining attempt st session with
     | .err _ st' => ∃ cs', trailOK st' cs'
     | .ok _ res _ st' => trailOK st' { cs with qaExp := res.sessionId }) := by
  intro remaining
  induction remaining with
  | zero => intro attempt st session cs h hs; exact ⟨cs, h⟩
  | succ r ih =>
    intro attempt st session cs h hs
    simp only [qaRetriesLoop, doRun]
    by_cases hok : (env.gateway st.calls).exitOk
    · rcases hv : (env.gateway st.calls).verdict with _ | v
      · have h1 := trailOK_recordCall
          (⟨.qa, session, attempt, true, pyOrOpt (env.gateway st.calls).marker session, none⟩)
          h (by simpa [ContState.expFor] using hs)
        by_cases hr : r = 0
        · subst hr
          simp only [hok, hv, reduceIte]
          exact ⟨_, h1⟩
        · simp only [hok, hv, hr, reduceIte]
          have h2 := ih (attempt + 1) _ (pyOrOpt (env.gateway st.calls).marker session)
            (contUpdate cs ⟨.qa, session, attempt, true,
              pyOrOpt (env.gateway st.calls).marker session, none⟩) h1 rfl
          simpa [contUpdate] using h2
      · have h1 := trailOK_recordCall
          (⟨.qa, session, attempt, true, pyOrOpt (env.gateway st.calls).marker session, none⟩)
          h (by simpa [ContState.expFor] using hs)
        simp only [hok, hv, reduceIte]
        simpa [contUpdate] using h1
    · simp only [Bool.not_eq_true] at hok
      have h1 := trailOK_recordCall
        (⟨.qa, session, attempt, false, none, none⟩)
        h (by simpa [ContState.expFor] using hs)
      by_cases hr : r = 0
      · subst hr
        simp only [hok, reduceIte]
        exact ⟨_, h1⟩
      · simp only [hok, hr, reduceIte]
        have h2 := ih (attempt + 1) _ none
          (contUpdate cs ⟨.qa, session, attempt, false, none, none⟩) h1 rfl
        simpa [contUpdate] using h2

theorem managerRetriesLoop_cont (env : Env) (a : Nat) :
    ∀ (remaining : Nat) (st : FlowState) (session : Option String) (cs : ContState),
    trailOK st cs → session = cs.managerExp →
    (match managerRetriesLoop env a remaining st session with
     | .err _ st' => ∃ cs', trailOK st' cs'
     | .ok _ res st' => trailOK st' { cs with managerExp := res.sessionId }) := by
  intro remaining
  induction remaining with
  | zero => intro st session cs h hs; exact ⟨cs, h⟩
  | succ r ih =>
    intro st session cs h hs
    simp only [managerRetriesLoop, doRun]
    by_cases hok : (env.gateway st.calls).exitOk
    · rcases hv : (env.gateway st.calls).verdict with _ | v
      · have h1 := trailOK_recordCall
          (⟨.manager, session, a, true, pyOrOpt (env.gateway st.calls).marker session, none⟩)
          h (by simpa [ContState.expFor] using hs)
        by_cases hr : r = 0
        · subst hr
          simp only [hok, hv, reduceIte]
          exact ⟨_, h1⟩
        · simp only [hok, hv, hr, reduceIte]
          have h2 := ih _ (pyOrOpt (env.gateway st.calls).marker session)
            (contUpdate cs ⟨.manager, session, a, true,
              pyOrOpt (env.gateway st.calls).marker session, none⟩) h1 rfl
          simpa [contUpdate] using h2
      · have h1 := trailOK_recordCall
          (⟨.manager, session, a, true, pyOrOpt (env.gateway st.calls).marker session, none⟩)
          h (by simpa [ContState.expFor] using hs)
        simp only [hok, hv, reduceIte]
        simpa [contUpdate] using h1
    · simp only [Bool.not_eq_true] at hok
      have h1 := trailOK_recordCall
        (⟨.manager, session, a, false, none, none⟩)
        h (by simpa [ContState.expFor] using hs)
      by_cases hr : r = 0
      · subst hr
        simp only [hok, reduceIte]
        exact ⟨_, h1⟩
      · simp only [hok, hr, reduceIte]
        have h2 := ih _ none
          (contUpdate cs ⟨.manager, session, a, false, none, none⟩) h1 rfl
        simpa [contUpdate] using h2

theorem managerCycle_cont (env : Env) (cfg : Config) (ip : String) (asess : Option String) :
    ∀ (budget attempt : Nat) (st : FlowState) (msession : Option String)
      (cqr : Option Verdict) (qfc : Nat) (qsession : Option String) (cs : ContState),
    trailOK st cs → msession = cs.managerExp → qsession = cs.qaExp →
    (match managerCycle env cfg ip asess budget attempt st msession cqr qfc qsession with
     | .done st' => ∃ cs', trailOK st' cs'
     | .err _ st' => ∃ cs', trailOK st' cs'
     | .toAgent _ st' => ∃ cs', trailOK st' cs' ∧ cs'.agentExp = cs.agentExp) := by
  intro budget
  induction budget with
  | zero =>
    intro attempt st msession cqr qfc qsession cs h hms hqs
    have hml := managerRetriesLoop_cont env attempt (cfg.managerRetryLimit + 1) st msession cs
      h hms
    rw [managerCycle]
    rcases hm : managerRetriesLoop env attempt (cfg.managerRetryLimit + 1) st msession
      with ⟨review, res, st'⟩ | ⟨o, st'⟩ <;> rw [hm] at hml <;> dsimp only at hml ⊢
    · by_cases hp : statusNorm review = "pass"
      · rw [if_pos hp, if_neg (by simp [validateBacklogResourceConstraints])]
        exact ⟨_, hml⟩
      · rw [if_neg hp]
        exact ⟨_, hml⟩
    · exact hml
  | succ b ih =>
    intro attempt st msession cqr qfc qsession cs h hms hqs
    have hml := managerRetriesLoop_cont env attempt (cfg.managerRetryLimit + 1) st msession cs
      h hms
    rw [managerCycle]
    rcases hm : managerRetriesLoop env attempt (cfg.managerRetryLimit + 1) st msession
      with ⟨review, res, st'⟩ | ⟨o, st'⟩ <;> rw [hm] at hml <;> dsimp only at hml ⊢
    · by_cases hp : statusNorm review = "pass"
      · rw [if_pos hp, if_neg (by simp [validateBacklogResourceConstraints])]
        exact ⟨_, hml⟩
      · rw [if_neg hp]
        simp only [Nat.add_one]
        by_cases hqa : nextActorNorm review = "qa" ∧ cfg.enableQa = true
        · rw [if_pos hqa]
          have hqc := qaRetriesLoop_cont env (cfg.qaRetryLimit + 1) (qfc + 1) st' qsession
            { cs with managerExp := res.sessionId } hml (by simpa using hqs)
          rcases hq : qaRetriesLoop env (cfg.qaRetryLimit + 1) (qfc + 1) st' qsession
            with ⟨qaReview, qaRes, attemptUsed, st''⟩ | ⟨o, st''⟩ <;> rw [hq] at hqc <;>
            dsimp only at hqc ⊢
          · by_cases hqp : statusNorm qaReview = "pass"
            · rw [if_neg (by simp [hqp])]
              exact ih (attempt + 1) st'' res.sessionId (some qaReview) attemptUsed
                qaRes.sessionId
                { { cs with managerExp := res.sessionId } with qaExp := qaRes.sessionId }
                hqc rfl rfl
            · rw [if_pos (by simp [hqp])]
              exact ⟨_, hqc, rfl⟩
          · exact hqc
        · rw [if_neg hqa]
          exact ⟨_, hml, rfl⟩
    · exact hml

theorem agentLoop_cont (env : Env) (cfg : Config) (ip : String) :
    ∀ (remaining attempt : Nat) (prompt : String) (sess : Option String) (st : FlowState)
      (cs : ContState),
    trailOK st cs → sess = cs.agentExp →
    contCheck contInit
      (invocationsOf (agentLoop env cfg ip remaining attempt prompt sess st).2.events) =
      true := by
  intro remaining
  induction remaining with
  | zero => intro attempt prompt sess st cs h hs; exact h.1
  | succ r ih =>
    intro attempt prompt sess st cs h hs
    rw [agentLoop]
    simp only [doRun]
    by_cases hok : (env.gateway st.calls).exitOk
    · simp only [hok, if_true, reduceIte]
      have h1 := trailOK_recordCall
        ⟨.agent, sess, attempt, true, pyOrOpt (env.gateway st.calls).marker sess, some prompt⟩
        h (by simpa [ContState.expFor] using hs)
      have h2 := trailOK_recordCheck
        (env.missing (st.recordCall ⟨.agent, sess, attempt, true,
          pyOrOpt (env.gateway st.calls).marker sess, some prompt⟩).checks) h1
      by_cases hmiss : env.missing (st.recordCall ⟨.agent, sess, attempt, true,
          pyOrOpt (env.gateway st.calls).marker sess, some prompt⟩).checks ≠ []
      · rw [if_pos hmiss]
        exact ih _ _ _ _ _ h2 rfl
      · rw [if_neg hmiss]
        by_cases hqa : cfg.enableQa
        · rw [if_pos hqa]
          have hqc := qaRetriesLoop_cont env (cfg.qaRetryLimit + 1) 1 _ none
            (contUpdate cs ⟨.agent, sess, attempt, true,
              pyOrOpt (env.gateway st.calls).marker sess, some prompt⟩)
            h2 rfl
          rcases hq : qaRetriesLoop env (cfg.qaRetryLimit + 1) 1
              ((st.recordCall ⟨.agent, sess, attempt, true,
                pyOrOpt (env.gateway st.calls).marker sess, some prompt⟩).recordCheck
                (env.missing (st.recordCall ⟨.agent, sess, attempt, true,
                  pyOrOpt (env.gateway st.calls).marker sess, some prompt⟩).checks)) none
            with ⟨qaReview, qaRes, attemptUsed, st3⟩ | ⟨o, st3⟩ <;> rw [hq] at hqc <;>
            dsimp only at hqc ⊢
          · by_cases hqp : statusNorm qaReview = "pass"
            · rw [if_neg (by simp [hqp])]
              dsimp only
              rw [if_pos hqa]
              have hmc := managerCycle_cont env cfg ip
                (pyOrOpt (env.gateway st.calls).marker sess) cfg.managerRetryLimit 1 st3 none
                (some qaReview) (max attemptUsed 1) qaRes.sessionId _ hqc rfl rfl
              rcases hc : managerCycle env cfg ip (pyOrOpt (env.gateway st.calls).marker sess)
                  cfg.managerRetryLimit 1 st3 none (some qaReview) (max attemptUsed 1)
                  qaRes.sessionId with st4 | ⟨np, st4⟩ | ⟨o, st4⟩ <;> rw [hc] at hmc <;>
                dsimp only at hmc <;> dsimp only
              · obtain ⟨cs', hcs'⟩ := hmc
                exact hcs'.1
              · obtain ⟨cs3, h3, hag⟩ := hmc
                exact ih _ _ _ _ _ h3 (by rw [hag]; simp [contUpdate])
              · obtain ⟨cs', hcs'⟩ := hmc
                exact hcs'.1
            · rw [if_pos (by simp [hqp])]
              dsimp only
              exact ih _ _ _ _ _ hqc rfl
          · obtain ⟨cs', hcs'⟩ := hqc
            exact hcs'.1
        · rw [if_neg hqa]
          dsimp only
          rw [if_neg hqa]
          have hmc := managerCycle_cont env cfg ip
            (pyOrOpt (env.gateway st.calls).marker sess) cfg.managerRetryLimit 1 _ none
            none 0 none
            (contUpdate cs ⟨.agent, sess, attempt, true,
              pyOrOpt (env.gateway st.calls).marker sess, some prompt⟩) h2 rfl rfl
          rcases hc : managerCycle env cfg ip (pyOrOpt (env.gateway st.calls).marker sess)
              cfg.managerRetryLimit 1
              ((st.recordCall ⟨.agent, sess, attempt, true,
                pyOrOpt (env.gateway st.calls).marker sess, some prompt⟩).recordCheck
                (env.missing (st.recordCall ⟨.agent, sess, attempt, true,
                  pyOrOpt (env.gateway st.calls).marker sess, some prompt⟩).checks)) none
              none 0 none with st4 | ⟨np, st4⟩ | ⟨o, st4⟩ <;> rw [hc] at hmc <;>
            dsimp only at hmc <;> dsimp only
          · obtain ⟨cs', hcs'⟩ := hmc
            exact hcs'.1
          · obtain ⟨cs3, h3, hag⟩ := hmc
            exact ih _ _ _ _ _ h3 (by rw [hag]; simp [contUpdate])
          · obtain ⟨cs', hcs'⟩ := hmc
            exact hcs'.1
    · simp only [Bool.not_eq_true] at hok
      simp only [hok, Bool.false_eq_true, if_false, reduceIte]
      have h1 := trailOK_recordCall ⟨.agent, sess, attempt, false, none, some prompt⟩
        h (by simpa [ContState.expFor] using hs)
      by_cases hr : r = 0
      · subst hr
        rw [if_pos rfl]
        exact h1.1
      · rw [if_neg hr]
        exact ih _ _ _ _ _ h1 rfl

/-! ## Scheduler lemmas (C6/C7): association lists and the string order -/

theorem alookup_mem {α : Type} {key : String} {v : α} :
    ∀ {l : List (String × α)}, alookup key l = some v → (key, v) ∈ l := by
  intro l
  induction l with
  | nil => intro h; simp [alookup] at h
  | cons p rest ih =>
    intro h
    obtain ⟨k0, v0⟩ := p
    by_cases hk : k0 = key
    · subst hk
      simp only [alookup, eq_self_iff_true, if_true, Option.some.injEq] at h
      subst h
      exact List.mem_cons_self _ _
    · simp only [alookup, if_neg hk] at h
      exact List.mem_cons_of_mem _ (ih h)

theorem alookup_isSome_iff {α : Type} (key : String) :
    ∀ (l : List (String × α)), (alookup key l).isSome ↔ key ∈ l.map Prod.fst := by
  intro l
  induction l with
  | nil => simp [alookup]
  | cons p rest ih =>
    obtain ⟨k0, v0⟩ := p
    by_cases hk : k0 = key
    · subst hk
      simp [alookup]
    · simp [alookup, hk, ih, Ne.symm hk]

theorem alookup_aset {α : Type} (key k : String) (f : α → α) :
    ∀ (l : List (String × α)),
    alookup k (aset key f l) =
      if k = key then (alookup key l).map f else alookup k l := by
  intro l
  induction l with
  | nil => by_cases hk : k = key <;> simp [alookup, aset, hk]
  | cons p rest ih =>
    obtain ⟨k0, v0⟩ := p
    by_cases h0 : k0 = key
    · subst h0
      by_cases hk : k = k0
      · subst hk
        simp [aset, alookup]
      · simp [aset, alookup, hk, Ne.symm hk, ih]
    · by_cases hk : k = k0
      · subst hk
        simp [aset, alookup, h0, Ne.symm h0]
      · simp [aset, alookup, h0, hk, Ne.symm hk, ih]

theorem aset_keys {α : Type} (key : String) (f : α → α) :
    ∀ (l : List (String × α)), (aset key f l).map Prod.fst = l.map Prod.fst := by
  intro l
  induction l with
  | nil => rfl
  | cons p rest ih =>
    obtain ⟨k0, v0⟩ := p
    by_cases h0 : k0 = key <;> simp [aset, h0, ih]

theorem dinsert_fresh {α : Type} (key : String) (v : α) :
    ∀ (l : List (String × α)), key ∉ l.map Prod.fst → dinsert key v l = l ++ [(key, v)] := by
  intro l
  induction l with
  | nil => intro _; rfl
  | cons p rest ih =>
    obtain ⟨k0, v0⟩ := p
    intro h
    simp only [List.map_cons, List.mem_cons] at h
    push_neg at h
    simp [dinsert, Ne.symm h.1, ih h.2]

theorem foldl_dinsert_eq {α : Type} (f : TaskEntry → α) :
    ∀ (ts : List TaskEntry) (acc : List (String × α)),
    (taskIds ts ++ acc.map Prod.fst).Nodup →
    ts.foldl (fun acc t => dinsert t.task_id (f t) acc) acc =
      acc ++ ts.map (fun t => (t.task_id, f t)) := by
  intro ts
  induction ts with
  | nil => intro acc _; simp
  | cons t rest ih =>
    intro acc hnd
    simp only [taskIds, List.map_cons, List.cons_append, List.nodup_cons] at hnd
    obtain ⟨hfresh, hnd'⟩ := hnd
    simp only [List.foldl_cons]
    rw [dinsert_fresh t.task_id (f t) acc (by
      intro hmem
      exact hfresh (by simp [hmem]))]
    rw [ih (acc ++ [(t.task_id, f t)]) (by
      simp only [List.map_append, List.map_cons, List.map_nil, taskIds] at hnd' ⊢
      have : List.Perm (rest.map (fun t => t.task_id) ++ (acc.map Prod.fst ++ [t.task_id]))
          (t.task_id :: (rest.map (fun t => t.task_id) ++ acc.map Prod.fst)) := by
        simpa using @List.perm_append_comm _ (rest.map (fun t => t.task_id) ++
          acc.map Prod.fst) [t.task_id]
      refine this.nodup_iff.mpr ?_
      exact List.nodup_cons.mpr ⟨hfresh, hnd'⟩)]
    simp

theorem alookup_map_find {α : Type} (f : TaskEntry → α) (y : String) :
    ∀ (ts : List TaskEntry),
    alookup y (ts.map (fun t => (t.task_id, f t))) =
      (ts.find? (fun t => t.task_id == y)).map f := by
  intro ts
  induction ts with
  | nil => rfl
  | cons t rest ih =>
    by_cases hy : t.task_id = y
    · simp [alookup, List.find?, hy]
    · simp only [List.map_cons, alookup, List.find?_cons]
      rw [if_neg hy]
      have : (t.task_id == y) = false := by simp [hy]
      rw [this]
      exact ih

theorem charListLe_refl : ∀ (a : List Char), charListLe a a = true := by
  intro a
  induction a with
  | nil => rfl
  | cons c rest ih => simp [charListLe, ih]

theorem charListLe_total : ∀ (a b : List Char),
    charListLe a b = true ∨ charListLe b a = true := by
  intro a
  induction a with
  | nil => intro b; left; rfl
  | cons c rest ih =>
    intro b
    cases b with
    | nil => right; rfl
    | cons d bs =>
      by_cases h1 : c.toNat < d.toNat
      · left; simp [charListLe, h1]
      · by_cases h2 : d.toNat < c.toNat
        · right; simp [charListLe, h2]
        · rcases ih bs with h | h
          · left; simp [charListLe, h1, h2, h]
          · right; simp [charListLe, h1, h2, h]

theorem charListLe_cons_iff (x y : Char) (as bs : List Char) :
    charListLe (x :: as) (y :: bs) = true ↔
      (x.toNat < y.toNat ∨ (x.toNat = y.toNat ∧ charListLe as bs = true)) := by
  simp only [charListLe]
  by_cases h1 : x.toNat < y.toNat
  · simp [h1]
  · by_cases h2 : y.toNat < x.toNat
    · rw [if_neg h1, if_pos h2]
      constructor
      · intro h
        exact absurd h (by simp)
      · rintro (h | ⟨h, _⟩) <;> omega
    · rw [if_neg h1, if_neg h2]
      constructor
      · intro h
        exact Or.inr ⟨by omega, h⟩
      · rintro (h | ⟨_, h⟩)
        · omega
        · exact h

theorem charListLe_trans : ∀ (a b c : List Char),
    charListLe a b = true → charListLe b c = true → charListLe a c = true := by
  intro a
  induction a with
  | nil => intro b c _ _; rfl
  | cons x as ih =>
    intro b c hab hbc
    cases b with
    | nil => simp [charListLe] at hab
    | cons y bs =>
      cases c with
      | nil => simp [charListLe] at hbc
      | cons z cs =>
        rw [charListLe_cons_iff] at hab hbc ⊢
        rcases hab with h | ⟨he1, hr1⟩
        · rcases hbc with h2 | ⟨he2, hr2⟩
          · exact Or.inl (by omega)
          · exact Or.inl (by omega)
        · rcases hbc with h2 | ⟨he2, hr2⟩
          · exact Or.inl (by omega)
          · exact Or.inr ⟨by omega, ih bs cs hr1 hr2⟩

theorem strLe_refl (a : String) : strLe a a = true := charListLe_refl a.data

theorem strLe_total (a b : String) : strLe a b = true ∨ strLe b a = true :=
  charListLe_total a.data b.data

theorem strLe_trans {a b c : String} (h1 : strLe a b = true) (h2 : strLe b c = true) :
    strLe a c = true := charListLe_trans a.data b.data c.data h1 h2

theorem listMin_eq_none : ∀ {l : List String}, listMin l = none ↔ l = [] := by
  intro l
  cases l with
  | nil => simp [listMin]
  | cons x rest =>
    simp only [listMin]
    rcases h0 : listMin rest with _ | m0 <;> dsimp only <;>
      [simp; by_cases hc : strLe x m0 = true] <;> simp [hc]

theorem listMin_le : ∀ {l : List String} {m : String}, listMin l = some m →
    ∀ y ∈ l, strLe m y = true := by
  intro l
  induction l with
  | nil => intro m h; simp [listMin] at h
  | cons x rest ih =>
    intro m h y hy
    simp only [listMin] at h
    rcases h0 : listMin rest with _ | m0 <;> rw [h0] at h <;> dsimp only at h
    · simp only [Option.some.injEq] at h
      subst h
      have hre : rest = [] := listMin_eq_none.mp h0
      subst hre
      rcases List.mem_singleton.mp hy with rfl
      exact strLe_refl y
    · by_cases hc : strLe x m0 = true
      · rw [if_pos hc] at h
        simp only [Option.some.injEq] at h
        subst h
        rcases List.mem_cons.mp hy with rfl | hy2
        · exact strLe_refl y
        · exact strLe_trans hc (ih h0 y hy2)
      · rw [if_neg hc] at h
        simp only [Option.some.injEq] at h
        subst h
        rcases List.mem_cons.mp hy with rfl | hy2
        · rcases strLe_total y m0 with h1 | h1
          · exact absurd h1 hc
          · exact h1
        · exact ih h0 y hy2

theorem removeFirst_sublist (x : String) : ∀ (l : List String),
    List.Sublist (removeFirst x l) l := by
  intro l
  induction l with
  | nil => simp [removeFirst]
  | cons y rest ih =>
    by_cases hy : y = x
    · simp only [removeFirst, if_pos hy]
      exact List.sublist_cons_self y rest
    · simp only [removeFirst, if_neg hy]
      exact List.Sublist.cons₂ y ih

theorem mem_removeFirst {x : String} : ∀ {l : List String}, l.Nodup →
    ∀ y, (y ∈ removeFirst x l ↔ y ∈ l ∧ y ≠ x) := by
  intro l
  induction l with
  | nil => intro _ y; simp [removeFirst]
  | cons z rest ih =>
    intro hnd y
    rw [List.nodup_cons] at hnd
    by_cases hz : z = x
    · subst hz
      simp only [removeFirst, if_pos rfl, List.mem_cons]
      constructor
      · intro hy
        exact ⟨Or.inr hy, fun hyx => hnd.1 (hyx ▸ hy)⟩
      · rintro ⟨rfl | hy, hne⟩
        · exact absurd rfl hne
        · exact hy
    · simp only [removeFirst, if_neg hz, List.mem_cons, ih hnd.2 y]
      constructor
      · rintro (rfl | ⟨hy, hne⟩)
        · exact ⟨Or.inl rfl, fun h => hz (h ▸ rfl)⟩
        · exact ⟨Or.inr hy, hne⟩
      · rintro ⟨rfl | hy, hne⟩
        · exact Or.inl rfl
        · exact Or.inr ⟨hy, hne⟩

theorem perm_cons_removeFirst {x : String} : ∀ {l : List String}, x ∈ l →
    l.Perm (x :: removeFirst x l) := by
  intro l
  induction l with
  | nil => intro h; simp at h
  | cons z rest ih =>
    intro hx
    by_cases hz : z = x
    · subst hz
      simp [removeFirst]
    · have hx' : x ∈ rest := by
        rcases List.mem_cons.mp hx with h | h
        · exact absurd h.symm hz
        · exact h
      simp only [removeFirst, if_neg hz]
      exact ((ih hx').cons z).trans (List.Perm.swap x z (removeFirst x rest))

theorem relaxNeighbors_spec : ∀ (ns : List String) (indeg : List (String × Int))
    (ready : List String), ns.Nodup →
    (∀ y, alookup y (relaxNeighbors ns indeg ready).1 =
      if y ∈ ns then (alookup y indeg).map (fun v => v - 1) else alookup y indeg) ∧
    (relaxNeighbors ns indeg ready).2 =
      ready ++ ns.filter (fun n => alookup n indeg == some 1) ∧
    (relaxNeighbors ns indeg ready).1.map Prod.fst = indeg.map Prod.fst := by
  intro ns
  induction ns with
  | nil => intro indeg ready _; refine ⟨fun y => by simp [relaxNeighbors], by simp [relaxNeighbors], rfl⟩
  | cons n rest ih =>
    intro indeg ready hnd
    rw [List.nodup_cons] at hnd
    obtain ⟨hn, hnd'⟩ := hnd
    simp only [relaxNeighbors]
    have hset := alookup_aset n n (fun v => v - 1) indeg
    simp only [eq_self_iff_true, if_true] at hset
    by_cases hpush : alookup n (aset n (fun v => v - 1) indeg) = some 0
    · rw [if_pos hpush]
      obtain ⟨h1, h2, h3⟩ := ih (aset n (fun v => v - 1) indeg) (ready ++ [n]) hnd'
      refine ⟨?_, ?_, ?_⟩
      · intro y
        rw [h1 y]
        by_cases hyr : y ∈ rest
        · simp only [hyr, if_true, List.mem_cons, Or.inr hyr, reduceIte]
          rw [alookup_aset]
          have hyn : ¬ y = n := fun h => hn (h ▸ hyr)
          rw [if_neg hyn]
          simp
        · simp only [alookup_aset, List.mem_cons]
          by_cases hy : y = n
          · subst hy
            simp [hyr]
          · simp [hy, hyr]
      · rw [h2]
        have hval : alookup n indeg = some 1 := by
          rw [hset] at hpush
          rcases hv : alookup n indeg with _ | v <;> rw [hv] at hpush <;>
            simp only [Option.map_none', Option.map_some'] at hpush
          · exact absurd hpush (by simp)
          · simp only [Option.some.injEq] at hpush ⊢
            omega
        have hbeq : (alookup n indeg == some 1) = true := by rw [hval]; rfl
        simp only [List.filter_cons, hbeq, if_true, reduceIte]
        simp only [List.append_assoc, List.singleton_append]
        congr 1
        congr 1
        apply List.filter_congr
        intro a ha
        have han : ¬ a = n := fun h => hn (h ▸ ha)
        rw [alookup_aset, if_neg han]
      · rw [h3, aset_keys]
    · rw [if_neg hpush]
      obtain ⟨h1, h2, h3⟩ := ih (aset n (fun v => v - 1) indeg) ready hnd'
      refine ⟨?_, ?_, ?_⟩
      · intro y
        rw [h1 y]
        by_cases hyr : y ∈ rest
        · simp only [hyr, if_true, List.mem_cons, Or.inr hyr, reduceIte]
          rw [alookup_aset]
          have hyn : ¬ y = n := fun h => hn (h ▸ hyr)
          rw [if_neg hyn]
          simp
        · simp only [alookup_aset, List.mem_cons]
          by_cases hy : y = n
          · subst hy
            simp [hyr]
          · simp [hy, hyr]
      · rw [h2]
        have hval : (alookup n indeg == some 1) = false := by
          rcases hv : alookup n indeg with _ | v
          · rfl
          · rw [hset, hv] at hpush
            simp only [Option.map_some', Option.some.injEq] at hpush
            have : ¬ v = 1 := fun h => hpush (by omega)
            simp [this]
        simp only [List.filter_cons, hval]
        simp only [Bool.false_eq_true, if_false, reduceIte]
        congr 1
        apply List.filter_congr
        intro a ha
        have han : ¬ a = n := fun h => hn (h ▸ ha)
        rw [alookup_aset, if_neg han]
      · rw [h3, aset_keys]

theorem respectsFrom_mem (tasks : List TaskEntry) :
    ∀ (l seen : List String), respectsFrom tasks seen l →
    ∀ y ∈ l, ∀ d ∈ depsOf tasks y, d ∈ seen ∨ d ∈ l := by
  intro l
  induction l with
  | nil => intro seen _ y hy; simp at hy
  | cons z rest ih =>
    intro seen hresp y hy d hd
    obtain ⟨hz, hrest⟩ := hresp
    rcases List.mem_cons.mp hy with rfl | hy'
    · exact Or.inl (hz d hd)
    · rcases ih (z :: seen) hrest y hy' d hd with h | h
      · rcases List.mem_cons.mp h with rfl | h'
        · exact Or.inr (List.mem_cons_self _ _)
        · exact Or.inl h'
      · exact Or.inr (List.mem_cons_of_mem _ h)

theorem respectsFrom_congr (tasks : List TaskEntry) :
    ∀ (l seen1 seen2 : List String), (∀ x, x ∈ seen1 → x ∈ seen2) →
    respectsFrom tasks seen1 l → respectsFrom tasks seen2 l := by
  intro l
  induction l with
  | nil => intro seen1 seen2 _ _; trivial
  | cons z rest ih =>
    intro seen1 seen2 hsub hresp
    obtain ⟨hz, hrest⟩ := hresp
    refine ⟨fun d hd => hsub d (hz d hd), ?_⟩
    exact ih (z :: seen1) (z :: seen2) (by
      intro x hx
      rcases List.mem_cons.mp hx with rfl | hx'
      · exact List.mem_cons_self _ _
      · exact List.mem_cons_of_mem _ (hsub x hx')) hrest

theorem respectsFrom_snoc (tasks : List TaskEntry) :
    ∀ (l seen : List String) (y : String),
    respectsFrom tasks seen l → (∀ d ∈ depsOf tasks y, d ∈ seen ∨ d ∈ l) →
    respectsFrom tasks seen (l ++ [y]) := by
  intro l
  induction l with
  | nil =>
    intro seen y _ hdeps
    refine ⟨fun d hd => ?_, trivial⟩
    rcases hdeps d hd with h | h
    · exact h
    · simp at h
  | cons z rest ih =>
    intro seen y hresp hdeps
    obtain ⟨hz, hrest⟩ := hresp
    refine ⟨hz, ?_⟩
    refine ih (z :: seen) y hrest (fun d hd => ?_)
    rcases hdeps d hd with h | h
    · exact Or.inl (List.mem_cons_of_mem _ h)
    · rcases List.mem_cons.mp h with rfl | h'
      · exact Or.inl (List.mem_cons_self _ _)
      · exact Or.inr h'

theorem depsOf_eq_of_mem {tasks : List TaskEntry} (hids : (taskIds tasks).Nodup)
    {t : TaskEntry} (ht : t ∈ tasks) {y : String} (hy : t.task_id = y) :
    depsOf tasks y = t.deps := by
  induction tasks with
  | nil => simp at ht
  | cons t0 rest ih =>
    simp only [taskIds, List.map_cons, List.nodup_cons] at hids
    rcases List.mem_cons.mp ht with rfl | ht'
    · simp [depsOf, List.find?_cons, hy]
    · have hne : ¬ t0.task_id = y := by
        intro h
        refine hids.1 ?_
        rw [h]
        exact List.mem_map.mpr ⟨t, ht', hy⟩
      simp only [depsOf, List.find?_cons]
      have : (t0.task_id == y) = false := by simp [hne]
      rw [this]
      exact ih hids.2 ht'

theorem mem_ids_of_depsOf_ne_nil {tasks : List TaskEntry} {y : String}
    (h : depsOf tasks y ≠ []) : y ∈ taskIds tasks := by
  rcases hf : tasks.find? (fun t => t.task_id == y) with _ | t
  · simp [depsOf, hf] at h
  · have hmem := List.mem_of_find?_eq_some hf
    have heq : t.task_id = y := by simpa using List.find?_some hf
    exact heq ▸ List.mem_map.mpr ⟨t, hmem, rfl⟩

theorem depsOf_sub {tasks : List TaskEntry}
    (hdeps : ∀ t ∈ tasks, ∀ d ∈ t.deps, d ∈ taskIds tasks) (y : String) :
    ∀ d ∈ depsOf tasks y, d ∈ taskIds tasks := by
  intro d hd
  rcases hf : tasks.find? (fun t => t.task_id == y) with _ | t
  · simp [depsOf, hf] at hd
  · simp only [depsOf, hf] at hd
    exact hdeps t (List.mem_of_find?_eq_some hf) d hd

theorem depsOf_nodup {tasks : List TaskEntry}
    (hdnd : ∀ t ∈ tasks, t.deps.Nodup) (y : String) : (depsOf tasks y).Nodup := by
  rcases hf : tasks.find? (fun t => t.task_id == y) with _ | t
  · simp [depsOf, hf]
  · simp only [depsOf, hf]
    exact hdnd t (List.mem_of_find?_eq_some hf)

theorem mem_succListD {tasks : List TaskEntry} {x y : String} :
    y ∈ succListD tasks x ↔ ∃ t ∈ tasks, t.task_id = y ∧ x ∈ t.deps := by
  simp only [succListD, List.mem_flatMap, List.mem_map, List.mem_filter]
  constructor
  · rintro ⟨t, ht, ⟨d, ⟨hd, hdx⟩, hty⟩⟩
    exact ⟨t, ht, hty.symm ▸ rfl, (by simpa using hdx : d = x) ▸ hd⟩
  · rintro ⟨t, ht, hty, hx⟩
    exact ⟨t, ht, ⟨x, ⟨hx, by simp⟩, hty⟩⟩

theorem mem_succListD_iff {tasks : List TaskEntry} (hids : (taskIds tasks).Nodup)
    {x y : String} :
    y ∈ succListD tasks x ↔ y ∈ taskIds tasks ∧ x ∈ depsOf tasks y := by
  rw [mem_succListD]
  constructor
  · rintro ⟨t, ht, hty, hx⟩
    refine ⟨List.mem_map.mpr ⟨t, ht, hty⟩, ?_⟩
    rw [depsOf_eq_of_mem hids ht hty]
    exact hx
  · rintro ⟨hy, hx⟩
    obtain ⟨t, ht, hty⟩ := List.mem_map.mp hy
    refine ⟨t, ht, hty, ?_⟩
    rw [depsOf_eq_of_mem hids ht hty] at hx
    exact hx

theorem succListD_nodup {tasks : List TaskEntry} (hids : (taskIds tasks).Nodup)
    (hdnd : ∀ t ∈ tasks, t.deps.Nodup) (x : String) : (succListD tasks x).Nodup := by
  induction tasks with
  | nil => simp [succListD]
  | cons t rest ih =>
    simp only [taskIds, List.map_cons, List.nodup_cons] at hids
    have hrest : (succListD rest x).Nodup :=
      ih hids.2 (fun t' ht' => hdnd t' (List.mem_cons_of_mem _ ht'))
    have hseg : t.deps.filter (fun d => d == x) = [] ∨
        t.deps.filter (fun d => d == x) = [x] := by
      have hcnt : t.deps.count x ≤ 1 :=
        List.nodup_iff_count_le_one.mp (hdnd t (List.mem_cons_self _ _)) x
      rw [List.filter_beq]
      interval_cases h : t.deps.count x
      · exact Or.inl rfl
      · exact Or.inr rfl
    have hsplit : succListD (t :: rest) x =
        ((t.deps.filter (fun d => d == x)).map (fun _ => t.task_id)) ++ succListD rest x := by
      simp [succListD]
    rcases hseg with hseg | hseg
    · rw [hsplit, hseg]
      simpa using hrest
    · rw [hsplit, hseg]
      simp only [List.map_cons, List.map_nil, List.singleton_append, List.nodup_cons]
      refine ⟨fun hmem => ?_, hrest⟩
      obtain ⟨t', ht', hty, _⟩ := mem_succListD.mp hmem
      refine hids.1 ?_
      rw [← hty]
      exact List.mem_map.mpr ⟨t', ht', rfl⟩

theorem countP_ordered_snoc : ∀ (deps : List String), deps.Nodup →
    ∀ (ordered : List String) (current : String), current ∉ ordered →
    deps.countP (fun d => !(ordered.contains d)) =
      deps.countP (fun d => !((ordered ++ [current]).contains d)) +
        (if current ∈ deps then 1 else 0) := by
  intro deps
  induction deps with
  | nil => intro _ ordered current _; simp
  | cons d rest ih =>
    intro hnd ordered current hcur
    rw [List.nodup_cons] at hnd
    rw [List.countP_cons, List.countP_cons]
    by_cases hdc : d = current
    · subst hdc
      have h1 : (!(ordered.contains d)) = true := by
        simp [List.elem_eq_mem]
        exact hcur
      have h2 : (!((ordered ++ [d]).contains d)) = false := by
        simp [List.elem_eq_mem]
      rw [h1, h2]
      simp only [Bool.false_eq_true, eq_self_iff_true, if_true, if_false, reduceIte]
      have h3 : (d ∈ d :: rest) := List.mem_cons_self _ _
      rw [if_pos h3]
      have h4 := ih hnd.2 ordered d hcur
      rw [if_neg hnd.1] at h4
      omega
    · have heq : (!((ordered ++ [current]).contains d)) = (!(ordered.contains d)) := by
        simp only [List.elem_eq_mem, List.mem_append, List.mem_singleton]
        simp [hdc]
      rw [heq]
      have h5 : (current ∈ d :: rest) ↔ (current ∈ rest) := by
        simp only [List.mem_cons]
        constructor
        · rintro (rfl | h)
          · exact absurd rfl hdc
          · exact h
        · exact Or.inr
      have h4 := ih hnd.2 ordered current hcur
      by_cases hcr : current ∈ rest
      · rw [if_pos hcr] at h4
        rw [if_pos (h5.mpr hcr)]
        omega
      · rw [if_neg hcr] at h4
        rw [if_neg (fun h => hcr (h5.mp h))]
        omega

theorem all_contains_iff_countP (deps ordered : List String) :
    deps.all (fun d => ordered.contains d) = true ↔
      deps.countP (fun d => !(ordered.contains d)) = 0 := by
  rw [List.countP_eq_zero, List.all_eq_true]
  simp

theorem edgeCount_eq_zero {ts : List TaskEntry} {y : String}
    (h : y ∉ taskIds ts) : edgeCount ts y = 0 := by
  induction ts with
  | nil => rfl
  | cons t rest ih =>
    simp only [taskIds, List.map_cons, List.mem_cons] at h
    push_neg at h
    simp only [edgeCount, List.map_cons, List.sum_cons]
    rw [if_neg (fun hh => h.1 hh.symm)]
    have h2 := ih (by simpa [taskIds] using h.2)
    simp only [edgeCount] at h2
    rw [h2]

theorem edgeCount_eq_depsOf {tasks : List TaskEntry} (hids : (taskIds tasks).Nodup)
    (y : String) : edgeCount tasks y = (depsOf tasks y).length := by
  induction tasks with
  | nil => rfl
  | cons t rest ih =>
    simp only [taskIds, List.map_cons, List.nodup_cons] at hids
    simp only [edgeCount, List.map_cons, List.sum_cons]
    by_cases hty : t.task_id = y
    · rw [if_pos hty]
      have h0 : edgeCount rest y = 0 := edgeCount_eq_zero (by
        intro hmem
        exact hids.1 (hty ▸ hmem))
      simp only [edgeCount] at h0
      rw [h0]
      have : depsOf (t :: rest) y = t.deps := by
        simp [depsOf, List.find?_cons, hty]
      rw [this]
      omega
    · rw [if_neg hty]
      have : depsOf (t :: rest) y = depsOf rest y := by
        simp only [depsOf, List.find?_cons]
        have : (t.task_id == y) = false := by simp [hty]
        rw [this]
      rw [this]
      have := ih hids.2
      simp only [edgeCount] at this
      omega

theorem addDeps_spec (index : List (String × TaskEntry)) (tid : String) :
    ∀ (deps : List String) (ind : List (String × Int)) (adj : List (String × List String)),
    (∀ d ∈ deps, (alookup d index).isSome) →
    ∃ ind' adj', addDeps tid index deps (ind, adj) = .ok (ind', adj') ∧
      (∀ y, alookup y ind' = if y = tid
        then (alookup y ind).map (fun v => v + (deps.length : Int)) else alookup y ind) ∧
      (∀ x, alookup x adj' = (alookup x adj).map
        (fun l => l ++ (deps.filter (fun d => d == x)).map (fun _ => tid))) ∧
      ind'.map Prod.fst = ind.map Prod.fst ∧ adj'.map Prod.fst = adj.map Prod.fst := by
  intro deps
  induction deps with
  | nil =>
    intro ind adj _
    refine ⟨ind, adj, rfl, fun y => ?_, fun x => ?_, rfl, rfl⟩
    · by_cases hy : y = tid <;> simp [hy]
    · simp
  | cons dep rest ih =>
    intro ind adj hsome
    have hd := hsome dep (List.mem_cons_self _ _)
    obtain ⟨ind', adj', heq, hind, hadj, hk1, hk2⟩ :=
      ih (aset tid (fun v => v + 1) ind) (aset dep (fun l => l ++ [tid]) adj)
        (fun d hd => hsome d (List.mem_cons_of_mem _ hd))
    refine ⟨ind', adj', ?_, fun y => ?_, fun x => ?_, ?_, ?_⟩
    · simp only [addDeps, hd, if_pos]
      exact heq
    · rw [hind y]
      by_cases hy : y = tid
      · subst hy
        rw [if_pos rfl, if_pos rfl, alookup_aset, if_pos rfl]
        rcases alookup y ind with _ | v
        · simp
        · simp only [Option.map_some', Option.some.injEq, List.length_cons]
          omega
      · rw [if_neg hy, if_neg hy, alookup_aset, if_neg hy]
    · rw [hadj x]
      rw [alookup_aset]
      by_cases hx : x = dep
      · subst hx
        rw [if_pos rfl]
        rcases alookup x adj with _ | l
        · simp
        · simp only [Option.map_some', Option.some.injEq, List.filter_cons]
          have : (x == x) = true := by simp
          rw [this]
          simp [List.append_assoc]
      · rw [if_neg hx]
        rcases alookup x adj with _ | l
        · simp
        · simp only [Option.map_some', Option.some.injEq, List.filter_cons]
          have : (dep == x) = false := by simp; exact fun h => hx h.symm
          rw [this]
          simp
    · rw [hk1, aset_keys]
    · rw [hk2, aset_keys]

theorem addAllDeps_spec (index : List (String × TaskEntry)) :
    ∀ (ts : List TaskEntry) (ind : List (String × Int)) (adj : List (String × List String)),
    (∀ t ∈ ts, ∀ d ∈ t.deps, (alookup d index).isSome) →
    ∃ ind' adj', addAllDeps index ts (ind, adj) = .ok (ind', adj') ∧
      (∀ y, alookup y ind' = (alookup y ind).map
        (fun v => v + (edgeCount ts y : Int))) ∧
      (∀ x, alookup x adj' = (alookup x adj).map (fun l => l ++ succListD ts x)) ∧
      ind'.map Prod.fst = ind.map Prod.fst ∧ adj'.map Prod.fst = adj.map Prod.fst := by
  intro ts
  induction ts with
  | nil =>
    intro ind adj _
    exact ⟨ind, adj, rfl, fun y => by simp [edgeCount], fun x => by simp [succListD], rfl, rfl⟩
  | cons t rest ih =>
    intro ind adj hsome
    obtain ⟨ind1, adj1, heq1, hind1, hadj1, hka, hkb⟩ :=
      addDeps_spec index t.task_id t.deps ind adj
        (fun d hd => hsome t (List.mem_cons_self _ _) d hd)
    obtain ⟨ind2, adj2, heq2, hind2, hadj2, hkc, hkd⟩ :=
      ih ind1 adj1 (fun t' ht' d hd => hsome t' (List.mem_cons_of_mem _ ht') d hd)
    refine ⟨ind2, adj2, ?_, fun y => ?_, fun x => ?_, ?_, ?_⟩
    · simp only [addAllDeps, heq1]
      exact heq2
    · rw [hind2 y, hind1 y]
      simp only [edgeCount, List.map_cons, List.sum_cons]
      by_cases hy : y = t.task_id
      · rw [if_pos hy]
        rcases alookup y ind with _ | v
        · simp
        · simp only [Option.map_some', Option.some.injEq]
          rw [if_pos hy.symm]
          push_cast
          ring_nf
      · rw [if_neg hy]
        rcases alookup y ind with _ | v
        · simp
        · simp only [Option.map_some', Option.some.injEq]
          rw [if_neg (fun h => hy h.symm)]
          push_cast
          omega
    · rw [hadj2 x, hadj1 x]
      rcases alookup x adj with _ | l
      · simp
      · simp only [Option.map_some', Option.some.injEq]
        have : succListD (t :: rest) x =
            ((t.deps.filter (fun d => d == x)).map (fun _ => t.task_id)) ++ succListD rest x := by
          simp [succListD]
        rw [this, List.append_assoc]
    · rw [hkc, hka]
    · rw [hkd, hkb]

theorem filterMap_zero_keys :
    ∀ (l : List (String × Int)),
    l.filterMap (fun p => if p.2 = 0 then some p.1 else none) =
      (l.filter (fun p => p.2 = 0)).map Prod.fst := by
  intro l
  induction l with
  | nil => rfl
  | cons p rest ih =>
    obtain ⟨k, v⟩ := p
    by_cases hv : v = 0
    · subst hv
      simp only [List.filterMap_cons, List.filter_cons]
      simpa using ih
    · simp only [List.filterMap_cons, List.filter_cons]
      have h1 : (if ((k, v) : String × Int).2 = 0 then some (k, v).1 else none) = none := by
        simp [hv]
      have h2 : (decide (((k, v) : String × Int).2 = 0)) = false := by simp [hv]
      rw [h1, h2]
      simpa using ih

theorem alookup_of_mem_nodup {α : Type} {k : String} {v : α} :
    ∀ {l : List (String × α)}, (l.map Prod.fst).Nodup → (k, v) ∈ l →
    alookup k l = some v := by
  intro l
  induction l with
  | nil => intro _ h; simp at h
  | cons p rest ih =>
    intro hnd hmem
    obtain ⟨k0, v0⟩ := p
    simp only [List.map_cons, List.nodup_cons] at hnd
    rcases List.mem_cons.mp hmem with heq | hmem'
    · injection heq with h1 h2
      subst h1
      subst h2
      simp [alookup]
    · have hk : ¬ k0 = k := by
        intro h
        subst h
        exact hnd.1 (List.mem_map.mpr ⟨(k0, v), hmem', rfl⟩)
      simp only [alookup, if_neg hk]
      exact ih hnd.2 hmem'

theorem countP_true_of_nil (deps : List String) :
    deps.countP (fun d => !(([] : List String).contains d)) = deps.length := by
  induction deps with
  | nil => rfl
  | cons d rest ih => simp [List.countP_cons, ih]

/-- Establishes the invariant at loop entry: `ordered = []`, the heap is
the zero-in-degree keys in dict order. -/
theorem kahnInit_inv {tasks : List TaskEntry} (hids : (taskIds tasks).Nodup)
    {indeg : List (String × Int)}
    (hkeys : indeg.map Prod.fst = taskIds tasks)
    (hval : ∀ y ∈ taskIds tasks, alookup y indeg = some ((depsOf tasks y).length : Int)) :
    KahnInv tasks indeg (indeg.filterMap (fun p => if p.2 = 0 then some p.1 else none)) [] := by
  have hknd : (indeg.map Prod.fst).Nodup := hkeys ▸ hids
  have hmem_iff : ∀ y, y ∈ indeg.filterMap (fun p => if p.2 = 0 then some p.1 else none) ↔
      (y, (0 : Int)) ∈ indeg := by
    intro y
    rw [List.mem_filterMap]
    constructor
    · rintro ⟨⟨k, v⟩, hp, hif⟩
      by_cases hv : v = 0
      · subst hv
        rw [if_pos rfl, Option.some.injEq] at hif
        subst hif
        exact hp
      · rw [if_neg hv] at hif
        exact absurd hif (by simp)
    · intro h
      exact ⟨(y, 0), h, by simp⟩
  have hlook_iff : ∀ y, (y, (0 : Int)) ∈ indeg ↔ alookup y indeg = some 0 := by
    intro y
    exact ⟨fun h => alookup_of_mem_nodup hknd h, fun h => alookup_mem h⟩
  refine ⟨hkeys, ?_, ?_, ?_, List.nodup_nil, by simp, trivial⟩
  · intro y hy
    rw [hval y hy, countP_true_of_nil]
  · rw [filterMap_zero_keys]
    exact ((List.filter_sublist _).map Prod.fst).nodup hknd
  · intro y
    rw [hmem_iff y, hlook_iff y]
    constructor
    · intro h
      have hyid : y ∈ taskIds tasks := by
        rw [← hkeys]
        exact (alookup_isSome_iff y indeg).mp (by simp [h])
      have := hval y hyid
      rw [this] at h
      simp only [Option.some.injEq] at h
      have hlen : (depsOf tasks y).length = 0 := by exact_mod_cast h
      refine ⟨hyid, by simp, ?_⟩
      rw [List.length_eq_zero] at hlen
      simp [hlen]
    · rintro ⟨hyid, _, hall⟩
      rw [hval y hyid]
      have h0 : (depsOf tasks y).length = 0 := by
        rcases hd : depsOf tasks y with _ | ⟨d, rest⟩
        · rfl
        · rw [hd] at hall
          simp at hall
      simp [h0]

/-- One iteration of the loop preserves the invariant. -/
theorem kahnStep_inv {tasks : List TaskEntry} (hids : (taskIds tasks).Nodup)
    (hdnd : ∀ t ∈ tasks, t.deps.Nodup)
    {indeg : List (String × Int)} {ready ordered : List String}
    (inv : KahnInv tasks indeg ready ordered)
    {current : String} (hm : listMin ready = some current) :
    KahnInv tasks
      (relaxNeighbors (succListD tasks current) indeg (removeFirst current ready)).1
      (relaxNeighbors (succListD tasks current) indeg (removeFirst current ready)).2
      (ordered ++ [current]) := by
  have hmem := listMin_mem hm
  obtain ⟨hcid, hcno, hcall⟩ := (inv.readyChar current).mp hmem
  obtain ⟨hrel1, hrel2, hrel3⟩ :=
    relaxNeighbors_spec (succListD tasks current) indeg (removeFirst current ready)
      (succListD_nodup hids hdnd current)
  have hready1 := @mem_removeFirst current ready inv.readyNodup
  have hcnt : ∀ y, (depsOf tasks y).countP (fun d => !(ordered.contains d)) =
      (depsOf tasks y).countP (fun d => !((ordered ++ [current]).contains d)) +
        (if current ∈ depsOf tasks y then 1 else 0) :=
    fun y => countP_ordered_snoc (depsOf tasks y) (depsOf_nodup hdnd y) ordered current hcno
  have hordc : ∀ y ∈ ordered,
      (depsOf tasks y).countP (fun d => !(ordered.contains d)) = 0 := by
    intro y hy
    rw [← all_contains_iff_countP]
    rw [List.all_eq_true]
    intro d hd
    rcases respectsFrom_mem tasks ordered [] inv.orderedResp y hy d hd with h | h
    · simp at h
    · simp [List.elem_eq_mem, h]
  have hcnt_current :
      (depsOf tasks current).countP (fun d => !(ordered.contains d)) = 0 :=
    (all_contains_iff_countP _ _).mp hcall
  refine ⟨?_, ?_, ?_, ?_, ?_, ?_, ?_⟩
  · rw [hrel3, inv.indegKeys]
  · intro y hy
    rw [hrel1 y]
    by_cases hyn : y ∈ succListD tasks current
    · have hcy := ((mem_succListD_iff hids).mp hyn).2
      rw [if_pos hyn, inv.indegVal y hy]
      have := hcnt y
      rw [if_pos hcy] at this
      simp only [Option.map_some', Option.some.injEq]
      push_cast [this]
      ring
    · have hncy : current ∉ depsOf tasks y := by
        intro hcy
        exact hyn ((mem_succListD_iff hids).mpr ⟨hy, hcy⟩)
      rw [if_neg hyn, inv.indegVal y hy]
      have := hcnt y
      rw [if_neg hncy] at this
      have h0 : (depsOf tasks y).countP (fun d => !(ordered.contains d)) =
          (depsOf tasks y).countP (fun d => !((ordered ++ [current]).contains d)) := by omega
      rw [h0]
  · rw [hrel2]
    refine List.Nodup.append ?_ ?_ ?_
    · exact (removeFirst_sublist current ready).nodup inv.readyNodup
    · exact (List.filter_sublist _).nodup (succListD_nodup hids hdnd current)
    · intro y hy1 hy2
      obtain ⟨hyr, hyne⟩ := (hready1 y).mp hy1
      obtain ⟨hyn, hp⟩ := List.mem_filter.mp hy2
      have hlook : alookup y indeg = some 1 := by simpa using hp
      have hyid := ((mem_succListD_iff hids).mp hyn).1
      have := inv.indegVal y hyid
      rw [hlook] at this
      simp only [Option.some.injEq] at this
      have h1 : (depsOf tasks y).countP (fun d => !(ordered.contains d)) = 1 := by
        exact_mod_cast this.symm
      obtain ⟨_, _, hally⟩ := (inv.readyChar y).mp hyr
      rw [all_contains_iff_countP] at hally
      omega
  · intro y
    rw [hrel2, List.mem_append]
    constructor
    · rintro (hy1 | hy2)
      · obtain ⟨hyr, hyne⟩ := (hready1 y).mp hy1
        obtain ⟨hyid, hyno, hally⟩ := (inv.readyChar y).mp hyr
        refine ⟨hyid, ?_, ?_⟩
        · simp only [List.mem_append, List.mem_singleton]
          push_neg
          exact ⟨hyno, hyne⟩
        · rw [List.all_eq_true] at hally ⊢
          intro d hd
          have := hally d hd
          simp only [List.elem_eq_mem, decide_eq_true_eq] at this ⊢
          simp [this]
      · obtain ⟨hyn, hp⟩ := List.mem_filter.mp hy2
        have hlook : alookup y indeg = some 1 := by simpa using hp
        obtain ⟨hyid, hcy⟩ := (mem_succListD_iff hids).mp hyn
        have := inv.indegVal y hyid
        rw [hlook] at this
        simp only [Option.some.injEq] at this
        have h1 : (depsOf tasks y).countP (fun d => !(ordered.contains d)) = 1 := by
          exact_mod_cast this.symm
        have hyno : y ∉ ordered := by
          intro hy
          rw [hordc y hy] at h1
          exact absurd h1 (by omega)
        have hyncur : y ≠ current := by
          intro h
          subst h
          rw [hcnt_current] at h1
          exact absurd h1 (by omega)
        refine ⟨hyid, ?_, ?_⟩
        · simp only [List.mem_append, List.mem_singleton]
          push_neg
          exact ⟨hyno, hyncur⟩
        · have := hcnt y
          rw [if_pos hcy, h1] at this
          rw [all_contains_iff_countP]
          omega
    · rintro ⟨hyid, hyno', hall'⟩
      simp only [List.mem_append, List.mem_singleton] at hyno'
      push_neg at hyno'
      obtain ⟨hyno, hyncur⟩ := hyno'
      rw [all_contains_iff_countP] at hall'
      by_cases hcy : current ∈ depsOf tasks y
      · right
        have hyn := (mem_succListD_iff hids).mpr ⟨hyid, hcy⟩
        refine List.mem_filter.mpr ⟨hyn, ?_⟩
        have := hcnt y
        rw [if_pos hcy, hall'] at this
        have hlook := inv.indegVal y hyid
        rw [this] at hlook
        simp [hlook]
      · left
        have := hcnt y
        rw [if_neg hcy, hall'] at this
        refine (hready1 y).mpr ⟨?_, hyncur⟩
        refine (inv.readyChar y).mpr ⟨hyid, hyno, ?_⟩
        rw [all_contains_iff_countP]
        omega
  · refine List.Nodup.append inv.orderedNodup (List.nodup_singleton current) ?_
    intro y hy1 hy2
    rw [List.mem_singleton] at hy2
    subst hy2
    exact hcno hy1
  · intro y hy
    rcases List.mem_append.mp hy with h | h
    · exact inv.orderedSub y h
    · rw [List.mem_singleton] at h
      exact h ▸ hcid
  · refine respectsFrom_snoc tasks ordered [] current inv.orderedResp ?_
    intro d hd
    rw [List.all_eq_true] at hcall
    have := hcall d hd
    simp only [List.elem_eq_mem, decide_eq_true_eq] at this
    exact Or.inr this

/-- The fueled `while ready:` loop preserves the invariant, terminates
with an empty heap given adequate fuel, and always pops the ascending
(`strLe`-least) eligible identifier. -/
theorem kahnLoopF_inv {tasks : List TaskEntry} (hids : (taskIds tasks).Nodup)
    (hdnd : ∀ t ∈ tasks, t.deps.Nodup)
    {adj : List (String × List String)}
    (hadj : ∀ x ∈ taskIds tasks, alookup x adj = some (succListD tasks x)) :
    ∀ (fuel : Nat) (indeg : List (String × Int)) (ready ordered : List String),
    KahnInv tasks indeg ready ordered →
    ready.length + sumToNat indeg ≤ fuel →
    ∃ ordered2 indeg2,
      kahnLoopF adj fuel indeg ready ordered = (ordered ++ ordered2, indeg2) ∧
      KahnInv tasks indeg2 [] (ordered ++ ordered2) ∧
      (∀ pre y post, ordered2 = pre ++ y :: post →
        ∀ z, z ∈ taskIds tasks → z ∉ ordered ++ pre →
          (depsOf tasks z).all (fun d => (ordered ++ pre).contains d) = true →
          strLe y z = true) := by
  intro fuel
  induction fuel with
  | zero =>
    intro indeg ready ordered inv hfuel
    have hready : ready = [] := by
      have : ready.length = 0 := by omega
      exact List.length_eq_zero.mp this
    subst hready
    refine ⟨[], indeg, by simp [kahnLoopF], by simpa using inv, ?_⟩
    intro pre y post hdec
    exact absurd hdec (by simp)
  | succ f ih =>
    intro indeg ready ordered inv hfuel
    rcases hm : listMin ready with _ | current
    · have hready : ready = [] := listMin_eq_none.mp hm
      subst hready
      refine ⟨[], indeg, by simp [kahnLoopF, listMin], by simpa using inv, ?_⟩
      intro pre y post hdec
      exact absurd hdec (by simp)
    · have hmem := listMin_mem hm
      have hcid := ((inv.readyChar current).mp hmem).1
      have hadjc : (alookup current adj).getD [] = succListD tasks current := by
        rw [hadj current hcid]
        rfl
      have hinv2 := kahnStep_inv hids hdnd inv hm
      have hmeas : (relaxNeighbors (succListD tasks current) indeg
            (removeFirst current ready)).2.length +
          sumToNat (relaxNeighbors (succListD tasks current) indeg
            (removeFirst current ready)).1 ≤ f := by
        have h1 := relaxNeighbors_measure (succListD tasks current) indeg
          (removeFirst current ready)
        have h2 := removeFirst_length hmem
        omega
      obtain ⟨ordered2, indeg2, heq, hinvf, hmin⟩ := ih _ _ _ hinv2 hmeas
      have hassoc : (ordered ++ [current]) ++ ordered2 = ordered ++ current :: ordered2 := by
        simp
      refine ⟨current :: ordered2, indeg2, ?_, ?_, ?_⟩
      · rw [kahnLoopF, hm]
        dsimp only
        rw [hadjc]
        rw [heq]
        simp
      · rw [← hassoc]
        exact hinvf
      · intro pre y post hdec z hz hzpre hzall
        cases pre with
        | nil =>
          simp only [List.nil_append] at hdec
          injection hdec with h1 h2
          subst h1
          simp only [List.append_nil] at hzpre hzall
          have hzready : z ∈ ready := by
            refine (inv.readyChar z).mpr ⟨hz, hzpre, hzall⟩
          exact listMin_le hm z hzready
        | cons c pre' =>
          simp only [List.cons_append] at hdec
          injection hdec with h1 h2
          subst h1
          have hassoc2 : (ordered ++ [current]) ++ pre' = ordered ++ current :: pre' := by
            simp
          refine hmin pre' y post h2 z hz ?_ ?_
          · rw [hassoc2]
            simpa using hzpre
          · rw [hassoc2]
            simpa using hzall

theorem find?_id_isSome (tasks : List TaskEntry) (y : String) :
    (tasks.find? (fun t => t.task_id == y)).isSome ↔ y ∈ taskIds tasks := by
  rw [List.find?_isSome]
  simp only [taskIds, List.mem_map, beq_iff_eq]

theorem find?_task_self {tasks : List TaskEntry} (hids : (taskIds tasks).Nodup)
    {t : TaskEntry} (ht : t ∈ tasks) :
    tasks.find? (fun u => u.task_id == t.task_id) = some t := by
  induction tasks with
  | nil => simp at ht
  | cons t0 rest ih =>
    simp only [taskIds, List.map_cons, List.nodup_cons] at hids
    rcases List.mem_cons.mp ht with rfl | ht'
    · simp [List.find?_cons]
    · have hne : (t0.task_id == t.task_id) = false := by
        simp only [beq_eq_false_iff_ne, ne_eq]
        intro h
        refine hids.1 ?_
        rw [h]
        exact List.mem_map.mpr ⟨t, ht', rfl⟩
      rw [List.find?_cons, hne]
      exact ih hids.2 ht'

theorem alookup_index {tasks : List TaskEntry} (hids : (taskIds tasks).Nodup) (y : String) :
    alookup y (tasks.foldl (fun acc t => dinsert t.task_id t acc) []) =
      tasks.find? (fun t => t.task_id == y) := by
  have h0 := foldl_dinsert_eq (fun t => t) tasks [] (by simpa using hids)
  rw [show (tasks.foldl (fun acc t => dinsert t.task_id t acc) []) =
      [] ++ tasks.map (fun t => (t.task_id, t)) from h0]
  rw [List.nil_append]
  calc alookup y (tasks.map (fun t => (t.task_id, t)))
      = (tasks.find? (fun t => t.task_id == y)).map (fun t => t) :=
        alookup_map_find (fun t => t) y tasks
    _ = tasks.find? (fun t => t.task_id == y) := by simp

theorem depChain_range' (tasks : List TaskEntry) (f : Nat → String)
    (hstep : ∀ n, f (n + 1) ∈ depsOf tasks (f n)) :
    ∀ (m a : Nat), depChain tasks (f a) ((List.range' (a + 1) m).map f) := by
  intro m
  induction m with
  | zero => intro a; trivial
  | succ k ih =>
    intro a
    rw [List.range'_succ]
    exact ⟨hstep a, ih (a + 1)⟩

theorem depChain_snocT (tasks : List TaskEntry) :
    ∀ (l : List String) (x T : String), depChain tasks x (l ++ [T]) →
    ∀ y ∈ x :: l, ∃ d ∈ depsOf tasks y, d ∈ l ++ [T] := by
  intro l
  induction l with
  | nil =>
    intro x T hch y hy
    rcases List.mem_singleton.mp hy with rfl
    exact ⟨T, hch.1, List.mem_singleton.mpr rfl⟩
  | cons z l' ih =>
    intro x T hch y hy
    obtain ⟨hz, hch'⟩ := hch
    rcases List.mem_cons.mp hy with rfl | hy'
    · exact ⟨z, hz, List.mem_cons_self _ _⟩
    · obtain ⟨d, hd, hdm⟩ := ih z T hch' y hy'
      exact ⟨d, hd, List.mem_cons_of_mem _ hdm⟩

theorem cycle_members_dep {tasks : List TaskEntry} {c : List String}
    (hc : IsDepCycle tasks c) : ∀ y ∈ c, ∃ d ∈ depsOf tasks y, d ∈ c := by
  rcases c with _ | ⟨y0, rest⟩
  · exact absurd hc (by simp [IsDepCycle])
  · intro y hy
    have hch : depChain tasks y0 (rest ++ [y0]) := hc
    obtain ⟨d, hd, hdm⟩ := depChain_snocT tasks rest y0 y0 hch y hy
    refine ⟨d, hd, ?_⟩
    rcases List.mem_append.mp hdm with h | h
    · exact List.mem_cons_of_mem _ h
    · rcases List.mem_singleton.mp h with rfl
      exact List.mem_cons_self _ _

theorem cycle_not_ordered {tasks : List TaskEntry} {c : List String}
    (hc : IsDepCycle tasks c) :
    ∀ (l seen : List String), respectsFrom tasks seen l →
    (∀ y ∈ c, y ∉ seen) → ∀ y ∈ c, y ∉ l := by
  intro l
  induction l with
  | nil => intro seen _ _ y _; simp
  | cons z rest ih =>
    intro seen hresp hdisj y hy
    obtain ⟨hz, hrest⟩ := hresp
    have hzc : z ∉ c := by
      intro hzc
      obtain ⟨d, hd, hdc⟩ := cycle_members_dep hc z hzc
      exact hdisj d hdc (hz d hd)
    have hdisj' : ∀ y ∈ c, y ∉ z :: seen := by
      intro y2 hy2
      rw [List.mem_cons]
      push_neg
      exact ⟨fun h => hzc (h ▸ hy2), hdisj y2 hy2⟩
    rw [List.mem_cons]
    push_neg
    exact ⟨fun h => hzc (h ▸ hy), ih (z :: seen) hrest hdisj' y hy⟩

theorem kahn_complete {tasks : List TaskEntry} (hids : (taskIds tasks).Nodup)
    (hdeps : ∀ t ∈ tasks, ∀ d ∈ t.deps, d ∈ taskIds tasks)
    (hacyc : ∀ c, ¬ IsDepCycle tasks c)
    {indeg2 : List (String × Int)} {ordered2 : List String}
    (inv : KahnInv tasks indeg2 [] ordered2) :
    ∀ y ∈ taskIds tasks, y ∈ ordered2 := by
  by_contra hnc
  push_neg at hnc
  obtain ⟨y0, hy0id, hy0no⟩ := hnc
  set U := (taskIds tasks).filter (fun y => decide (y ∉ ordered2)) with hU
  have hUmem : ∀ y, y ∈ U ↔ y ∈ taskIds tasks ∧ y ∉ ordered2 := by
    intro y
    simp [hU]
  have hstep : ∀ y, y ∈ U → ∃ d, d ∈ depsOf tasks y ∧ d ∈ U := by
    intro y hy
    obtain ⟨hyid, hyno⟩ := (hUmem y).mp hy
    have hall : ¬ ((depsOf tasks y).all (fun d => ordered2.contains d) = true) := by
      intro hall
      have : y ∈ ([] : List String) := (inv.readyChar y).mpr ⟨hyid, hyno, hall⟩
      simp at this
    rw [List.all_eq_true] at hall
    push_neg at hall
    obtain ⟨d, hd, hdc⟩ := hall
    refine ⟨d, hd, (hUmem d).mpr ⟨depsOf_sub hdeps y d hd, ?_⟩⟩
    intro hdo
    exact hdc (by simp [List.elem_eq_mem, hdo])
  choose next hnext using hstep
  let F : Nat → {y : String // y ∈ U} := fun n =>
    Nat.rec ⟨y0, (hUmem y0).mpr ⟨hy0id, hy0no⟩⟩
      (fun _ p => ⟨next p.1 p.2, (hnext p.1 p.2).2⟩) n
  have hFstep : ∀ n, (F (n + 1)).1 ∈ depsOf tasks (F n).1 :=
    fun n => (hnext (F n).1 (F n).2).1
  have hcard : (U.toFinset).card < (Finset.range (U.length + 1)).card := by
    rw [Finset.card_range]
    have := U.toFinset_card_le
    omega
  have hmaps : ∀ a ∈ Finset.range (U.length + 1), (F a).1 ∈ U.toFinset := by
    intro a _
    exact List.mem_toFinset.mpr (F a).2
  obtain ⟨i, hi, j, hj, hij, hFeq⟩ :=
    Finset.exists_ne_map_eq_of_card_lt_of_maps_to hcard hmaps
  have hmain : ∀ (a b : Nat), a < b → (F a).1 = (F b).1 → False := by
    intro a b hab habeq
    have hchain := depChain_range' tasks (fun n => (F n).1) hFstep (b - a) a
    have hb : b - a = (b - a - 1) + 1 := by omega
    have h2 := @List.range'_concat 1 (a + 1) (b - a - 1)
    have hsplit : List.range' (a + 1) (b - a) = List.range' (a + 1) (b - a - 1) ++ [b] := by
      calc List.range' (a + 1) (b - a)
          = List.range' (a + 1) ((b - a - 1) + 1) := by rw [← hb]
        _ = List.range' (a + 1) (b - a - 1) ++ [a + 1 + 1 * (b - a - 1)] := h2
        _ = List.range' (a + 1) (b - a - 1) ++ [b] := by
            rw [show a + 1 + 1 * (b - a - 1) = b from by omega]
    refine hacyc ((F a).1 :: (List.range' (a + 1) (b - a - 1)).map (fun n => (F n).1)) ?_
    show depChain tasks (F a).1
      ((List.range' (a + 1) (b - a - 1)).map (fun n => (F n).1) ++ [(F a).1])
    have hrw : (List.range' (a + 1) (b - a - 1)).map (fun n => (F n).1) ++ [(F a).1] =
        (List.range' (a + 1) (b - a)).map (fun n => (F n).1) := by
      rw [hsplit, List.map_append]
      simp [habeq]
    rw [hrw]
    exact hchain
  rcases Nat.lt_trichotomy i j with h | h | h
  · exact hmain i j h hFeq
  · exact hij h
  · exact hmain j i h hFeq.symm

theorem mem_filterMap_pos {indeg2 : List (String × Int)} {y : String} {v : Int}
    (h : (y, v) ∈ indeg2) (hv : 0 < v) :
    y ∈ indeg2.filterMap (fun p => if p.2 > 0 then some p.1 else none) :=
  List.mem_filterMap.mpr ⟨(y, v), h, by simp [hv]⟩

theorem topologicallySort_run (tasks : List TaskEntry)
    (hids : (taskIds tasks).Nodup)
    (hdeps : ∀ t ∈ tasks, ∀ d ∈ t.deps, d ∈ taskIds tasks)
    (hdnd : ∀ t ∈ tasks, t.deps.Nodup) :
    ∃ ordered2 indeg2,
      KahnInv tasks indeg2 [] ordered2 ∧
      (∀ pre y post, ordered2 = pre ++ y :: post →
        ∀ z, z ∈ taskIds tasks → z ∉ pre →
          (depsOf tasks z).all (fun d => pre.contains d) = true → strLe y z = true) ∧
      topologicallySort tasks =
        (if ordered2.length ≠ tasks.length then
          Except.error (GraphErr.cycleDetected
            (indeg2.filterMap (fun p => if p.2 > 0 then some p.1 else none)))
        else Except.ok (ordered2.map (fun i =>
          (alookup i (tasks.foldl (fun acc t => dinsert t.task_id t acc) [])).getD
            default))) := by
  have hindex := alookup_index hids
  have hsome : ∀ t ∈ tasks, ∀ d ∈ t.deps,
      (alookup d (tasks.foldl (fun acc t => dinsert t.task_id t acc) [])).isSome := by
    intro t ht d hd
    rw [hindex d]
    exact (find?_id_isSome tasks d).mpr (hdeps t ht d hd)
  obtain ⟨indeg, adj, heq, hind, hadj, hk1, hk2⟩ :=
    addAllDeps_spec (tasks.foldl (fun acc t => dinsert t.task_id t acc) []) tasks
      (tasks.foldl (fun acc t => dinsert t.task_id (0 : Int) acc) [])
      (tasks.foldl (fun acc t => dinsert t.task_id ([] : List String) acc) []) hsome
  have hindeg0 : (tasks.foldl (fun acc t => dinsert t.task_id (0 : Int) acc) []) =
      tasks.map (fun t => (t.task_id, (0 : Int))) := by
    have h0 := foldl_dinsert_eq (fun _ => (0 : Int)) tasks [] (by simpa using hids)
    simpa using h0
  have hadj0 : (tasks.foldl (fun acc t => dinsert t.task_id ([] : List String) acc) []) =
      tasks.map (fun t => (t.task_id, ([] : List String))) := by
    have h0 := foldl_dinsert_eq (fun _ => ([] : List String)) tasks [] (by simpa using hids)
    simpa using h0
  have hlook0 : ∀ y ∈ taskIds tasks,
      alookup y (tasks.foldl (fun acc t => dinsert t.task_id (0 : Int) acc) []) =
        some 0 := by
    intro y hy
    rw [hindeg0]
    calc alookup y (tasks.map (fun t => (t.task_id, (0 : Int))))
        = (tasks.find? (fun t => t.task_id == y)).map (fun _ => (0 : Int)) :=
          alookup_map_find (fun _ => (0 : Int)) y tasks
      _ = some 0 := by
          rcases hf : tasks.find? (fun t => t.task_id == y) with _ | t
          · exact absurd ((find?_id_isSome tasks y).mpr hy) (by simp [hf])
          · rw [hf]
            rfl
  have hlookA : ∀ y ∈ taskIds tasks,
      alookup y (tasks.foldl (fun acc t => dinsert t.task_id ([] : List String) acc) []) =
        some [] := by
    intro y hy
    rw [hadj0]
    calc alookup y (tasks.map (fun t => (t.task_id, ([] : List String))))
        = (tasks.find? (fun t => t.task_id == y)).map (fun _ => ([] : List String)) :=
          alookup_map_find (fun _ => ([] : List String)) y tasks
      _ = some [] := by
          rcases hf : tasks.find? (fun t => t.task_id == y) with _ | t
          · exact absurd ((find?_id_isSome tasks y).mpr hy) (by simp [hf])
          · rw [hf]
            rfl
  have hkeys : indeg.map Prod.fst = taskIds tasks := by
    rw [hk1, hindeg0]
    simp [taskIds]
  have hval : ∀ y ∈ taskIds tasks,
      alookup y indeg = some (((depsOf tasks y).length : Nat) : Int) := by
    intro y hy
    rw [hind y, hlook0 y hy]
    simp only [Option.map_some']
    rw [edgeCount_eq_depsOf hids y]
    simp
  have hadjv : ∀ x ∈ taskIds tasks, alookup x adj = some (succListD tasks x) := by
    intro x hx
    rw [hadj x, hlookA x hx]
    simp
  have hinv0 := kahnInit_inv hids hkeys hval
  set ready0 := indeg.filterMap (fun p => if p.2 = 0 then some p.1 else none) with hready0
  have hrun := kahnLoopF_inv hids hdnd hadjv (ready0.length + sumToNat indeg)
    indeg ready0 [] hinv0 (le_refl _)
  obtain ⟨ordered2, indeg2, hloop, hinvf, hmin⟩ := hrun
  refine ⟨ordered2, indeg2, by simpa using hinvf, ?_, ?_⟩
  · intro pre y post hdec z hz hzpre hzall
    exact hmin pre y post hdec z hz (by simpa using hzpre) (by simpa using hzall)
  · rw [topologicallySort]
    dsimp only
    rw [heq]
    dsimp only
    rw [show kahnLoop adj indeg ready0 [] = ([] ++ ordered2, indeg2) from hloop]
    rw [List.nil_append]

theorem depChain_rank {tasks : List TaskEntry} {r : String → Nat}
    (hr : ∀ y, ∀ d ∈ depsOf tasks y, r d < r y) :
    ∀ (l : List String) (x : String), depChain tasks x l → ∀ y ∈ l, r y < r x := by
  intro l
  induction l with
  | nil => intro x _ y hy; simp at hy
  | cons z rest ih =>
    intro x hch y hy
    obtain ⟨hz, hch'⟩ := hch
    rcases List.mem_cons.mp hy with rfl | hy'
    · exact hr x y hz
    · exact lt_trans (ih z hch' y hy') (hr x z hz)

theorem acyclic_of_rank (tasks : List TaskEntry) (r : String → Nat)
    (hr : ∀ y, ∀ d ∈ depsOf tasks y, r d < r y) :
    ∀ c, ¬ IsDepCycle tasks c := by
  intro c hc
  rcases c with _ | ⟨y0, rest⟩
  · exact hc
  · have hch : depChain tasks y0 (rest ++ [y0]) := hc
    have := depChain_rank hr (rest ++ [y0]) y0 hch y0 (by simp)
    omega

/-- Counterexample to C1 as stated: after a manager verdict `fail` sends
the flow back to the agent, the next manager invocation starts a fresh
conversation (`resume = none`) even though the previous manager invocation
succeeded at the gateway and returned session `m1` — so consecutive
same-role invocations do not always round-trip the token.  The trail
shows manager call 1 with `ok = true`, `returned = some "m1"`, and manager
call 2 with `resume = none`. -/
theorem c1_counterexample_manager_session_not_carried :
    sessionRoundTripOk
      (invocationsOf
        (executeAgentFlow
          (envOfList [gwOk "a1" none, gwOk "m1" (some ⟨some "fail", ["x"], none⟩),
            gwOk "a2" none, gwOk "m2" (some passVerdict)] [])
          ⟨1, 1, 0, false, false⟩ "P").2.events) = false ∧
    invocationsOf
      (executeAgentFlow
        (envOfList [gwOk "a1" none, gwOk "m1" (some ⟨some "fail", ["x"], none⟩),
          gwOk "a2" none, gwOk "m2" (some passVerdict)] [])
        ⟨1, 1, 0, false, false⟩ "P").2.events =
      [⟨.agent, none, 1, true, some "a1", some "P"⟩,
       ⟨.manager, none, 1, true, some "m1", none⟩,
       ⟨.agent, some "a1", 2, true, some "a2", some (buildRetryPrompt "P" ["x"])⟩,
       ⟨.manager, none, 1, true, some "m2", none⟩] := by
  exact ⟨by decide, by decide⟩

/-- C1 as amended: every run of the execution flow obeys the
expected-resume discipline `contCheck`: the first invocation of each role
is tokenless; a later invocation of the same role resumes exactly the
session id returned by that role's previous invocation when it succeeded
at the gateway, and is tokenless when it failed; and — the amendment —
whenever control returns to the Executing state (an agent invocation
occurs), the manager and QA expectations are reset, so the next
manager/QA invocation starts a fresh conversation rather than resuming
their last session.  Since each resume is derived solely from the same
role's history, tokens never cross roles. -/
theorem c1_session_continuity_per_role :
    ∀ (env : Env) (cfg : Config) (prompt : String),
    contCheck contInit
      (invocationsOf (executeAgentFlow env cfg prompt).2.events) = true := by
  intro env cfg prompt
  exact agentLoop_cont env cfg prompt (cfg.agentRetryLimit + 1) 1 prompt none
    { calls := 0, checks := 0, events := [] } contInit ⟨rfl, rfl⟩ rfl

/-- C6: for every backlog whose identifiers are unique, whose declared
dependencies are duplicate-free and refer only to tasks in the set, and
whose dependency graph is acyclic, `_topologically_sort` succeeds and
returns a sequence containing every task exactly once (a permutation of
the input) in which each task appears after all of its dependencies;
whenever the output is split around an element, that element is the
ascending (code-point least) identifier among all tasks eligible at that
point (not yet emitted, all dependencies emitted) — the `heapq`
tie-break; and any call on the same input returning successfully yields
the identical sequence. -/
theorem c6_topological_sort_correct (tasks : List TaskEntry)
    (hids : (taskIds tasks).Nodup)
    (hdeps : ∀ t ∈ tasks, ∀ d ∈ t.deps, d ∈ taskIds tasks)
    (hdnd : ∀ t ∈ tasks, t.deps.Nodup)
    (hacyc : ∀ c, ¬ IsDepCycle tasks c) :
    ∃ out, topologicallySort tasks = .ok out ∧
      out.Perm tasks ∧
      respectsFrom tasks [] (out.map (fun t => t.task_id)) ∧
      (∀ pre y post, out.map (fun t => t.task_id) = pre ++ y :: post →
        ∀ z, z ∈ taskIds tasks → z ∉ pre →
          (depsOf tasks z).all (fun d => pre.contains d) = true → strLe y z = true) ∧
      (∀ out2, topologicallySort tasks = .ok out2 → out2 = out) := by
  obtain ⟨ordered2, indeg2, hinv, hmin, heqrun⟩ := topologicallySort_run tasks hids hdeps hdnd
  have hall := kahn_complete hids hdeps hacyc hinv
  have hperm2 : ordered2.Perm (taskIds tasks) := by
    rw [List.perm_ext_iff_of_nodup hinv.orderedNodup hids]
    intro a
    exact ⟨fun h => hinv.orderedSub a h, fun h => hall a h⟩
  have hlen : ordered2.length = tasks.length := by
    rw [hperm2.length_eq, taskIds, List.length_map]
  have hfspec : ∀ t ∈ tasks,
      (alookup t.task_id (tasks.foldl (fun acc t => dinsert t.task_id t acc) [])).getD
        default = t := by
    intro t ht
    rw [alookup_index hids, find?_task_self hids ht]
    rfl
  have heqok : topologicallySort tasks = .ok (ordered2.map (fun i =>
      (alookup i (tasks.foldl (fun acc t => dinsert t.task_id t acc) [])).getD
        default)) := by
    rw [heqrun, if_neg (by simp [hlen])]
  have hfid : ∀ i ∈ ordered2,
      ((alookup i (tasks.foldl (fun acc t => dinsert t.task_id t acc) [])).getD
        default).task_id = i := by
    intro i hi
    have hiid : i ∈ taskIds tasks := hinv.orderedSub i hi
    obtain ⟨t, ht, hti⟩ := List.mem_map.mp hiid
    rw [← hti, hfspec t ht]
  have hmapid : (ordered2.map (fun i =>
      (alookup i (tasks.foldl (fun acc t => dinsert t.task_id t acc) [])).getD
        default)).map (fun t => t.task_id) = ordered2 := by
    rw [List.map_map]
    calc ordered2.map ((fun t => t.task_id) ∘ (fun i =>
          (alookup i (tasks.foldl (fun acc t => dinsert t.task_id t acc) [])).getD default))
        = ordered2.map (fun i => i) := List.map_congr_left (fun i hi => hfid i hi)
      _ = ordered2 := List.map_id' ordered2
  refine ⟨_, heqok, ?_, ?_, ?_, ?_⟩
  · have h1 : (taskIds tasks).map (fun i =>
        (alookup i (tasks.foldl (fun acc t => dinsert t.task_id t acc) [])).getD default) =
        tasks := by
      rw [taskIds, List.map_map]
      calc tasks.map ((fun i =>
            (alookup i (tasks.foldl (fun acc t => dinsert t.task_id t acc) [])).getD
              default) ∘ (fun t => t.task_id))
          = tasks.map (fun t => t) := List.map_congr_left (fun t ht => hfspec t ht)
        _ = tasks := List.map_id' tasks
    have hp := hperm2.map (fun i =>
      (alookup i (tasks.foldl (fun acc t => dinsert t.task_id t acc) [])).getD default)
    rw [h1] at hp
    exact hp
  · rw [hmapid]
    exact hinv.orderedResp
  · rw [hmapid]
    exact hmin
  · intro out2 h
    rw [heqok] at h
    injection h with h'
    exact h'.symm

/-- Witness for C6 at the backlog `a` (no deps), `ab` (depends on `a`):
all four hypotheses hold and the sort succeeds with a dependency-respecting
permutation. -/
theorem c6_topological_sort_correct_witness :
    ∃ out, topologicallySort
        [{ task_id := "a" }, { task_id := "ab", deps := ["a"] }] = .ok out ∧
      out.Perm [{ task_id := "a" }, { task_id := "ab", deps := ["a"] }] ∧
      respectsFrom [{ task_id := "a" }, { task_id := "ab", deps := ["a"] }] []
        (out.map (fun t => t.task_id)) := by
  obtain ⟨out, hok, hperm, hresp, _, _⟩ :=
    c6_topological_sort_correct
      [{ task_id := "a" }, { task_id := "ab", deps := ["a"] }]
      (by decide) (by decide) (by decide)
      (acyclic_of_rank _ (fun s => s.data.length) (by
        intro y d hd
        by_cases h1 : y = "a"
        · subst h1
          rw [show depsOf [{ task_id := "a" },
              ({ task_id := "ab", deps := ["a"] } : TaskEntry)] "a" = [] from rfl] at hd
          simp at hd
        · by_cases h2 : y = "ab"
          · subst h2
            rw [show depsOf [{ task_id := "a" },
                ({ task_id := "ab", deps := ["a"] } : TaskEntry)] "ab" = ["a"] from rfl] at hd
            rcases List.mem_singleton.mp hd with rfl
            decide
          · have hf : ([{ task_id := "a" },
                ({ task_id := "ab", deps := ["a"] } : TaskEntry)].find?
                  (fun t => t.task_id == y)) = none := by
              rw [List.find?_eq_none]
              intro t ht
              rcases List.mem_cons.mp ht with rfl | ht'
              · intro h
                rw [beq_iff_eq] at h
                exact h1 h.symm
              · rcases List.mem_singleton.mp ht' with rfl
                intro h
                rw [beq_iff_eq] at h
                exact h2 h.symm
            rw [show depsOf [{ task_id := "a" },
                ({ task_id := "ab", deps := ["a"] } : TaskEntry)] y =
              [] from by simp [depsOf, hf]] at hd
            simp at hd))
  exact ⟨out, hok, hperm, hresp⟩

/-- C7: a backlog (unique ids, in-set duplicate-free dependencies) whose
dependency graph contains a cycle is rejected: `_topologically_sort`
returns the cycle error carrying a nonempty list of unresolved
(positive remaining in-degree) identifiers that includes every member of
the cycle, and no ordering — not even a partial one — is produced. -/
theorem c7_cycle_rejected (tasks : List TaskEntry)
    (hids : (taskIds tasks).Nodup)
    (hdeps : ∀ t ∈ tasks, ∀ d ∈ t.deps, d ∈ taskIds tasks)
    (hdnd : ∀ t ∈ tasks, t.deps.Nodup)
    (c : List String) (hcyc : IsDepCycle tasks c) :
    ∃ u, topologicallySort tasks = .error (.cycleDetected u) ∧
      u ≠ [] ∧ (∀ y ∈ c, y ∈ u) ∧ (∀ y ∈ u, y ∈ taskIds tasks) ∧
      (∀ out, topologicallySort tasks ≠ .ok out) := by
  obtain ⟨ordered2, indeg2, hinv, hmin, heqrun⟩ := topologicallySort_run tasks hids hdeps hdnd
  have hnotord : ∀ y ∈ c, y ∉ ordered2 :=
    cycle_not_ordered hcyc ordered2 [] hinv.orderedResp (by simp)
  have hcids : ∀ y ∈ c, y ∈ taskIds tasks := by
    intro y hy
    obtain ⟨d, hd, _⟩ := cycle_members_dep hcyc y hy
    exact mem_ids_of_depsOf_ne_nil (List.ne_nil_of_mem hd)
  have hcu : ∀ y ∈ c, y ∈ indeg2.filterMap (fun p => if p.2 > 0 then some p.1 else none) := by
    intro y hy
    obtain ⟨d, hd, hdc⟩ := cycle_members_dep hcyc y hy
    have hcount : 0 < (depsOf tasks y).countP (fun d => !(ordered2.contains d)) := by
      rw [List.countP_pos_iff]
      refine ⟨d, hd, ?_⟩
      simp only [Bool.not_eq_true', List.elem_eq_mem, decide_eq_false_iff_not]
      exact hnotord d hdc
    have hlook := hinv.indegVal y (hcids y hy)
    refine mem_filterMap_pos (alookup_mem hlook) ?_
    exact_mod_cast hcount
  rcases c with _ | ⟨y0, rest⟩
  · exact absurd hcyc (by simp [IsDepCycle])
  · have hy0 : y0 ∈ taskIds tasks := hcids y0 (List.mem_cons_self _ _)
    have hlt : ordered2.length < tasks.length := by
      have hsub : ordered2.toFinset ⊆ (taskIds tasks).toFinset.erase y0 := by
        intro z hz
        rw [List.mem_toFinset] at hz
        rw [Finset.mem_erase]
        refine ⟨?_, List.mem_toFinset.mpr (hinv.orderedSub z hz)⟩
        intro h
        exact hnotord y0 (List.mem_cons_self _ _) (h ▸ hz)
      have h1 : ordered2.toFinset.card = ordered2.length :=
        List.toFinset_card_of_nodup hinv.orderedNodup
      have h2 : (taskIds tasks).toFinset.card = (taskIds tasks).length :=
        List.toFinset_card_of_nodup hids
      have h3 := Finset.card_le_card hsub
      have h4 := Finset.card_erase_of_mem (List.mem_toFinset.mpr hy0)
      have h5 : 1 ≤ (taskIds tasks).toFinset.card :=
        Finset.card_pos.mpr ⟨y0, List.mem_toFinset.mpr hy0⟩
      have h6 : (taskIds tasks).length = tasks.length := by
        rw [taskIds, List.length_map]
      omega
    refine ⟨indeg2.filterMap (fun p => if p.2 > 0 then some p.1 else none), ?_, ?_, hcu, ?_, ?_⟩
    · rw [heqrun, if_pos (by omega)]
    · exact List.ne_nil_of_mem (hcu y0 (List.mem_cons_self _ _))
    · intro y hy
      obtain ⟨⟨k, v⟩, hp, hif⟩ := List.mem_filterMap.mp hy
      have hk : k = y := by
        by_cases hv : v > 0
        · rw [if_pos hv, Option.some.injEq] at hif
          exact hif
        · rw [if_neg hv] at hif
          exact absurd hif (by simp)
      subst hk
      have : k ∈ indeg2.map Prod.fst := List.mem_map.mpr ⟨(k, v), hp, rfl⟩
      rw [hinv.indegKeys] at this
      exact this
    · intro out hout
      rw [heqrun, if_pos (by omega)] at hout
      exact absurd hout (by simp)

/-- Witness for C7 at the two-task cycle `a → b → a`: the sort reports a
nonempty cycle error containing both identifiers and returns no ordering. -/
theorem c7_cycle_rejected_witness :
    ∃ u, topologicallySort
        [{ task_id := "a", deps := ["b"] }, { task_id := "b", deps := ["a"] }] =
        .error (.cycleDetected u) ∧
      u ≠ [] ∧ ("a" ∈ u ∧ "b" ∈ u) := by
  obtain ⟨u, herr, hne, hmem, _, _⟩ :=
    c7_cycle_rejected
      [{ task_id := "a", deps := ["b"] }, { task_id := "b", deps := ["a"] }]
      (by decide) (by decide) (by decide)
      ["a", "b"]
      (show depChain
          [{ task_id := "a", deps := ["b"] }, { task_id := "b", deps := ["a"] }]
          "a" (["b"] ++ ["a"]) from
        ⟨by decide, by decide, trivial⟩)
  exact ⟨u, herr, hne, hmem "a" (by decide), hmem "b" (by decide)⟩

end Automation
